import Mathlib

/-!
# standardese comment directives: the cmark command extension

A shallow embedding of `src/comment/cmark_ext_command.cpp`: the line scanner,
the directive recognizer (`try_open_block`), node tagging and the post-parse
structuring pass (`create_implicit_brief_details`), followed by theorems about
them.

Conventions of the embedding.

* A `char*` cursor into a NUL-terminated buffer is the list of characters from
  the cursor up to (excluding) the terminator: `*cur` is the head of the list,
  or NUL when the list is empty; `++cur` is the tail; the pointer difference
  `cur - input` is the difference of the lengths.
* A tree node is a value (kind, user data slot, string content, children).
  The siblings around the traversal cursor are kept as a zipper: the previous
  siblings nearest first, and the current node followed by its next siblings.
* The engine primitives (`cmark_node_new`, `cmark_node_replace`,
  `cmark_node_append_child`, `cmark_parser_advance_offset`, ...) are external
  to the repository; they are modelled by their interface: create, replace at
  position, append as last child, advance the line offset.
-/

namespace Standardese

/-! ## Platform and code space (declared outside the translated file) -/

/-- Widths of the machine types involved in storing a directive code in the
user data slot; the field `static_assert` is the compile-time check
`sizeof(void*) >= sizeof(unsigned)` of `set_raw_command_type`. -/
structure Platform where
  unsigned_bits : Nat
  pointer_bits : Nat
  static_assert : unsigned_bits ≤ pointer_bits

/-- The distinguished codes of `section_type` / `command_type` and the range
predicates `is_section` / `is_command`. They are declared in a header of the
repository that is not part of the translated file, so they are parameters. -/
structure Codes where
  brief : Nat
  details : Nat
  invalid : Nat
  is_section : Nat → Bool
  is_command : Nat → Bool

/-- The configuration object: trigger character and word lookup. -/
structure config where
  command_character : Char
  try_lookup : List Char → Nat

/-! ## Tree nodes -/

/-- Node kinds: the engine's block and inline kinds, `node_none` for a null node,
and the two kinds registered by the extension (`node_section()`,
`node_command()`, both registered as block kinds). -/
inductive cmark_node_type where
  | node_none
  | document | block_quote | list | item | code_block | html_block
  | custom_block | paragraph | heading | thematic_break
  | text | softbreak | linebreak | code | html_inline | custom_inline
  | emph | strong | link | image
  | node_section | node_command
  deriving DecidableEq, Repr

open cmark_node_type

/-- A document tree node: kind, user data slot (a pointer-sized integer),
string content (absent or a string) and the ordered children. -/
inductive cmark_node where
  | mk (type : cmark_node_type) (user_data : Nat) (content : Option (List Char))
      (children : List cmark_node)

namespace cmark_node

/-- Kind of the node: `cmark_node_get_type`. -/
def type : cmark_node → cmark_node_type
  | mk t _ _ _ => t

/-- User data slot of the node: `cmark_node_get_user_data`. -/
def user_data : cmark_node → Nat
  | mk _ u _ _ => u

/-- String content of the node: `cmark_node_get_string_content`. -/
def content : cmark_node → Option (List Char)
  | mk _ _ c _ => c

/-- Children of the node, first to last. -/
def children : cmark_node → List cmark_node
  | mk _ _ _ cs => cs

end cmark_node

/-- Engine primitive `cmark_node_new(type)`: a fresh node without children. -/
def cmark_node_new (t : cmark_node_type) : cmark_node :=
  cmark_node.mk t 0 none []

/-- Engine primitive `cmark_node_set_user_data`. -/
def cmark_node_set_user_data (n : cmark_node) (p : Nat) : cmark_node :=
  cmark_node.mk n.type p n.content n.children

/-- Engine primitive `cmark_node_set_string_content`. -/
def cmark_node_set_string_content (n : cmark_node) (s : Option (List Char)) : cmark_node :=
  cmark_node.mk n.type n.user_data s n.children

/-- Engine primitive `cmark_node_append_child(node, child)`, on the parent:
`child` (already unlinked from its old position) becomes the last child. -/
def cmark_node_append_child (n : cmark_node) (child : cmark_node) : cmark_node :=
  cmark_node.mk n.type n.user_data n.content (n.children ++ [child])

/-! ## Node tagging -/

/-- Source function `set_raw_command_type`: the unsigned code is converted to a pointer and
stored in the user data slot. -/
def set_raw_command_type (pf : Platform) (node : cmark_node) (cmd : Nat) : cmark_node :=
  cmark_node_set_user_data node (cmd % 2 ^ pf.pointer_bits)

/-- Source function `get_raw_command_type`: the user data pointer is converted to an integer
and truncated to `unsigned`. -/
def get_raw_command_type (pf : Platform) (node : cmark_node) : Nat :=
  node.user_data % 2 ^ pf.unsigned_bits

/-- Source function `set_node` (the registration of the extension on the node is not
modelled: nothing in the translated file reads it back). -/
def set_node (pf : Platform) (node : cmark_node) (command : Nat) (str : Option (List Char)) :
    cmark_node :=
  cmark_node_set_string_content (set_raw_command_type pf node command) str

/-- Source function `create_node(self, type, command, str)`: a new detached node. -/
def create_node (pf : Platform) (type : cmark_node_type) (command : Nat)
    (str : Option (List Char)) : cmark_node :=
  set_node pf (cmark_node_new type) command str

/-- Source function `detail::get_section_type`: `none` is the failed assertion. -/
def get_section_type (pf : Platform) (node : cmark_node) : Option Nat :=
  if node.type = node_section then some (get_raw_command_type pf node) else none

/-- Source function `detail::get_section_key`: `none` is the failed assertion. -/
def get_section_key (node : cmark_node) : Option (Option (List Char)) :=
  if node.type = node_section then some node.content else none

/-- Source function `detail::get_command_type`: `none` is the failed assertion. -/
def get_command_type (pf : Platform) (node : cmark_node) : Option Nat :=
  if node.type = node_command then some (get_raw_command_type pf node) else none

/-- Source function `detail::get_command_arguments`: `none` is the failed assertion. -/
def get_command_arguments (node : cmark_node) : Option (Option (List Char)) :=
  if node.type = node_command then some node.content else none

/-! ## Line scanner -/

/-- The NUL character terminating a C string. -/
def NUL : Char := Char.ofNat 0

/-- Dereference of a cursor: the character under it, NUL at the terminator. -/
def deref (cur : List Char) : Char :=
  cur.headD NUL

/-- The C string starting at a cursor: the characters up to the first NUL. -/
def c_str (cur : List Char) : List Char :=
  cur.takeWhile (fun c => c != NUL)

/-- Source function `is_whitespace`. -/
def is_whitespace (c : Char) : Bool :=
  c == ' ' || c == '\t' || c == '\n'

/-- Source function `skip_whitespace`: returns the advanced cursor. -/
def skip_whitespace : List Char → List Char
  | [] => []
  | c :: rest => if c != NUL && is_whitespace c then skip_whitespace rest else c :: rest

/-- The `for` loop of `parse_word`: accumulates the word, returns it with the
advanced cursor. -/
def parse_word_loop : List Char → List Char → List Char × List Char
  | word, [] => (word, [])
  | word, c :: rest =>
    if c != NUL && !is_whitespace c then parse_word_loop (word ++ [c]) rest
    else (word, c :: rest)

/-- Source function `parse_word`: the word and the advanced cursor. -/
def parse_word (cur : List Char) : List Char × List Char :=
  parse_word_loop [] (skip_whitespace cur)

/-- Source function `try_parse_command`: the code and the advanced cursor. -/
def try_parse_command (k : Codes) (c : config) (cur : List Char) : Nat × List Char :=
  if deref cur = c.command_character then
    let r := parse_word cur.tail
    (c.try_lookup (c_str r.1), r.2)
  else
    (k.invalid, cur)

/-- Source function `parse_section_key`: the optional key and the advanced (or restored)
cursor. -/
def parse_section_key (cur : List Char) : Option (List Char) × List Char :=
  let save := cur
  let r := parse_word cur
  let cur1 := skip_whitespace r.2
  if deref cur1 = '-' then
    (some r.1, skip_whitespace cur1.tail)
  else
    (none, save)

/-! ## Directive recognizer -/

/-- The container under which the engine tries to open a block: its kind and
the kinds of its ancestors, nearest first (empty for the document root). -/
structure container where
  type : cmark_node_type
  ancestors : List cmark_node_type

/-- Kind of `cmark_node_parent(parent_container)`; `node_none` for a null parent. -/
def container.parent_type (p : container) : cmark_node_type :=
  p.ancestors.headD node_none

/-- Source function `accept_commands`. -/
def accept_commands (parent_container : container) : Bool :=
  if parent_container.type = node_section || parent_container.type = node_command then
    false
  else
    parent_container.type = document || parent_container.parent_type = document

/-- What `try_open_block` did when it returned a node: the node added under
the container (`cmark_parser_add_child` followed by `set_node`) and the count
passed to `cmark_parser_advance_offset`. -/
structure opened_block where
  node : cmark_node
  advance : Nat

/-- Source function `create_node(self, indent, parser, parent, type, command, str)`: the node
that `cmark_parser_add_child` adds, tagged by `set_node`. -/
def create_child_node (pf : Platform) (type : cmark_node_type) (command : Nat)
    (str : Option (List Char)) : cmark_node :=
  set_node pf (cmark_node_new type) command str

/-- Source function `try_open_block`: `none` is the null return (no node is created and the
line offset is not advanced). `input` is the line, `len` the length passed by
the engine. -/
def try_open_block (pf : Platform) (k : Codes) (c : config) (parent_container : container)
    (input : List Char) (len : Nat) : Option opened_block :=
  if !accept_commands parent_container then
    none
  else
    let r := try_parse_command k c input
    let command := r.1
    let cur := r.2
    if k.is_section command then
      let key := parse_section_key cur
      let node := create_child_node pf node_section command (key.1.map c_str)
      some ⟨node, input.length - key.2.length⟩
    else if k.is_command command then
      let cur1 := skip_whitespace cur
      some ⟨create_child_node pf node_command command (some (c_str cur1)), len⟩
    else
      none

/-! ## Structuring pass -/

/-- Source function `paragraph_can_be_brief` (its assertion on the kind holds at the only call
site, which tests the kind first). -/
def paragraph_can_be_brief (paragraph : cmark_node) : Bool :=
  paragraph.children.all (fun child => !(child.type = softbreak || child.type = linebreak))

/-- State of the traversal of the root's children: the previous siblings of
`cur` (nearest first), `cur` followed by its next siblings (empty when `cur`
is null), the flag `need_brief`, and the nodes created so far by
`cmark_node_new`, oldest first. -/
structure pass_state where
  prev : List cmark_node
  cur_next : List cmark_node
  need_brief : Bool
  created : List cmark_node

/-- The node a `prev_details` result points to, as a position among the
previous siblings: the command nodes skipped over (nearest first), the details
section, and the siblings before it (nearest first). -/
structure details_pos where
  skipped : List cmark_node
  details : cmark_node
  before : List cmark_node

/-- Source function `prev_details`, given the previous siblings of `cur` nearest first:
`none` is the null return. -/
def prev_details (pf : Platform) (k : Codes) (prev : List cmark_node) : Option details_pos :=
  let skipped := prev.takeWhile (fun d => d.type = node_command)
  match prev.dropWhile (fun d => d.type = node_command) with
  | [] => none
  | details :: before =>
    if details.type = node_section && get_section_type pf details == some k.details then
      some ⟨skipped, details, before⟩
    else
      none

/-- Source function `wrap_in_details` applied to `cur`; in the resulting state `cur` is the
returned details section. -/
def wrap_in_details (pf : Platform) (k : Codes) (s : pass_state) : pass_state :=
  match s.cur_next with
  | [] => s
  | cur :: next =>
    match prev_details pf k s.prev with
    | none =>
      -- create new detail section, put it at the position of `cur`
      let details := create_node pf node_section k.details none
      { s with cur_next := cmark_node_append_child details cur :: next,
               created := s.created ++ [details] }
    | some pos =>
      -- `cur` leaves the top level and becomes the last child of the section
      -- found; the cursor moves back to that section
      { s with prev := pos.before,
               cur_next := cmark_node_append_child pos.details cur ::
                 (pos.skipped.reverse ++ next) }

/-- Body of the `for` loop of `create_implicit_brief_details`. -/
def loop_body (pf : Platform) (k : Codes) (s : pass_state) : pass_state :=
  match s.cur_next with
  | [] => s
  | cur :: next =>
    -- `need_brief.try_reset()`: read the flag and clear it
    let was_set := s.need_brief
    let s1 : pass_state := { s with need_brief := false }
    if was_set && cur.type = paragraph then
      if paragraph_can_be_brief cur then
        -- create implicit brief
        let node := create_node pf node_section k.brief none
        { s1 with cur_next := cmark_node_append_child node cur :: next,
                  created := s1.created ++ [node] }
      else
        wrap_in_details pf k s1
    else if cur.type = node_section && get_section_type pf cur == some k.brief then
      { s1 with need_brief := false }
    else if cur.type != node_section && cur.type != node_command then
      wrap_in_details pf k { s1 with need_brief := false }
    else
      s1

/-- The increment `cur = cmark_node_next(cur)`. -/
def loop_next (s : pass_state) : pass_state :=
  match s.cur_next with
  | [] => s
  | cur :: next => { s with prev := cur :: s.prev, cur_next := next }

/-- The `for` loop, bounded by a number of iterations: `none` when the bound
is reached before `cur` is null. -/
def loop (pf : Platform) (k : Codes) : Nat → pass_state → Option pass_state
  | 0, s =>
    match s.cur_next with
    | [] => some s
    | _ :: _ => none
  | fuel + 1, s =>
    match s.cur_next with
    | [] => some s
    | _ :: _ => loop pf k fuel (loop_next (loop_body pf k s))

/-- Number of nodes of a sibling list that are neither section nor command. -/
def plain_count (l : List cmark_node) : Nat :=
  (l.filter (fun n => n.type != node_section && n.type != node_command)).length

/-- Iteration bound used for a root with the given children. -/
def loop_bound (children : List cmark_node) : Nat :=
  children.length + plain_count children * (children.length + 1)

/-- Outcome of the post-process hook: the root after the in-place changes,
the nodes created, and the returned replacement root (always null). -/
structure postprocess_result where
  root : cmark_node
  created : List cmark_node
  new_root : Option cmark_node

/-- Source function `create_implicit_brief_details`: `none` only if the iteration bound were
exceeded. -/
def create_implicit_brief_details (pf : Platform) (k : Codes) (root : cmark_node) :
    Option postprocess_result :=
  match loop pf k (loop_bound root.children) ⟨[], root.children, true, []⟩ with
  | none => none
  | some s =>
    some ⟨cmark_node.mk root.type root.user_data root.content (s.prev.reverse ++ s.cur_next),
      s.created, none⟩

/-! ## Summary of the traversal (used to state and prove the theorems) -/

/-- One iteration of the loop (body and increment) on a node once the flag
`need_brief` is clear, on the pair (previous siblings, created nodes). -/
def settle_step (pf : Platform) (k : Codes) (acc : List cmark_node × List cmark_node)
    (n : cmark_node) : List cmark_node × List cmark_node :=
  if n.type = node_section ∨ n.type = node_command then (n :: acc.1, acc.2)
  else
    match prev_details pf k acc.1 with
    | none =>
      (cmark_node_append_child (create_node pf node_section k.details none) n :: acc.1,
        acc.2 ++ [create_node pf node_section k.details none])
    | some pos =>
      (pos.skipped ++ cmark_node_append_child pos.details n :: pos.before, acc.2)

/-- The iterations over a list of next siblings once `need_brief` is clear. -/
def settle (pf : Platform) (k : Codes) (acc : List cmark_node × List cmark_node)
    (l : List cmark_node) : List cmark_node × List cmark_node :=
  l.foldl (settle_step pf k) acc

/-- The first iteration of the loop, on the first child of the root. -/
def settle_first (pf : Platform) (k : Codes) (c : cmark_node) :
    List cmark_node × List cmark_node :=
  if c.type = paragraph then
    if paragraph_can_be_brief c then
      ([cmark_node_append_child (create_node pf node_section k.brief none) c],
        [create_node pf node_section k.brief none])
    else
      ([cmark_node_append_child (create_node pf node_section k.details none) c],
        [create_node pf node_section k.details none])
  else settle_step pf k ([], []) c

/-- The whole traversal, on the children of the root: the previous siblings at
the end (nearest first) and the created nodes. -/
def settle_all (pf : Platform) (k : Codes) (children : List cmark_node) :
    List cmark_node × List cmark_node :=
  match children with
  | [] => ([], [])
  | c :: rest => settle pf k (settle_first pf k c) rest

/-- Termination measure of the loop. -/
def loop_measure (s : pass_state) : Nat :=
  s.cur_next.length + plain_count s.cur_next * (s.prev.length + s.cur_next.length + 1)

mutual
/-- All nodes of a subtree, as (kind, user data, content), in document order. -/
def cmark_node.nodes : cmark_node → List (cmark_node_type × Nat × Option (List Char))
  | cmark_node.mk t u c cs => (t, u, c) :: nodes_list cs
/-- All nodes of the subtrees of a sibling list, in document order. -/
def nodes_list : List cmark_node → List (cmark_node_type × Nat × Option (List Char))
  | [] => []
  | n :: rest => n.nodes ++ nodes_list rest
end

/-- A section node tagged with the details code (the test of `prev_details`). -/
def is_details (pf : Platform) (k : Codes) (d : cmark_node) : Prop :=
  d.type = node_section ∧ get_section_type pf d = some k.details

/-- Node `b` is node `a` with children possibly appended: same kind, user
data and content, and the children of `a` are the leading children of `b`. -/
def extends_node (a b : cmark_node) : Prop :=
  b.type = a.type ∧ b.user_data = a.user_data ∧ b.content = a.content ∧
    a.children <+: b.children

/-- Node `b` is node `a` with children possibly appended, the latter only if
`a` is a details section. -/
def keeps_node (pf : Platform) (k : Codes) (a b : cmark_node) : Prop :=
  extends_node a b ∧ (¬ is_details pf k a → b = a)

/-! ## Sample platform, code space and configuration (used by the examples) -/

/-- A platform with 32-bit `unsigned` and 64-bit pointers. -/
def sample_platform : Platform := ⟨32, 64, by decide⟩

/-- A sample code space: command codes below 9, `invalid` is 9, section codes
from 10 (brief) and 11 (details) up to 19. -/
def sample_codes : Codes :=
  ⟨10, 11, 9, fun c => decide (10 ≤ c ∧ c < 20), fun c => decide (c < 9)⟩

/-- A sample configuration with trigger character `@`, where `param` is a
section code and `returns` a command code. -/
def sample_config : config :=
  ⟨'@', fun w =>
    if w = "param".toList then 12 else if w = "returns".toList then 3 else 9⟩

/-- A text node. -/
def sample_text (s : String) : cmark_node :=
  cmark_node.mk text 0 (some s.toList) []

/-- A paragraph holding one line of text. -/
def sample_paragraph (s : String) : cmark_node :=
  cmark_node.mk paragraph 0 none [sample_text s]

/-- A document root with the given top-level children. -/
def sample_document (children : List cmark_node) : cmark_node :=
  cmark_node.mk document 0 none children

/-- Node `n` is either a top-level sibling in `l` or a child of a section of
`l`. -/
def placed (n : cmark_node) (l : List cmark_node) : Prop :=
  n ∈ l ∨ ∃ s ∈ l, s.type = node_section ∧ n ∈ s.children

/-- Node `n` is a child of a details section of `l`. -/
def in_details (pf : Platform) (k : Codes) (n : cmark_node) (l : List cmark_node) : Prop :=
  ∃ d ∈ l, is_details pf k d ∧ n ∈ d.children

/-- The test of the `for` loop of `parse_word`: a character that is neither
the terminator nor whitespace. -/
def is_word_char (c : Char) : Bool :=
  c != NUL && !is_whitespace c

/-! ## Containment policy -/

/-- The engine's test `(t & CMARK_NODE_TYPE_MASK) == CMARK_NODE_TYPE_BLOCK`
on a node kind. The masks are declared in the engine's header, outside the
repository; the test is true exactly for the block-level kinds, the two kinds
registered by the extension included (both are registered as block kinds). -/
def is_block_type : cmark_node_type → Bool
  | document | block_quote | list | item | code_block | html_block
  | custom_block | paragraph | heading | thematic_break => true
  | node_section | node_command => true
  | _ => false

/-- The lambda registered with `cmark_syntax_extension_set_can_contain_func`
in `create_command_extension`. -/
def can_contain_func (pf : Platform) (k : Codes) (node : cmark_node)
    (child_type : cmark_node_type) : Bool :=
  if node.type = node_command then
    false
  else if node.type = node_section then
    if get_section_type pf node == some k.details then
      -- can contain any block
      is_block_type child_type
    else
      -- can only contain paragraphs
      child_type = paragraph
  else
    false

/-- A container in a tree rooted at a document node: going up from the
container, the last node reached is of kind document and no node before it
is. -/
def document_rooted (p : container) : Prop :=
  (p.type :: p.ancestors).getLast? = some document ∧
    document ∉ (p.type :: p.ancestors).dropLast

/-- The invariants of a single node: a command node has no children, and a
section that is not tagged details has only paragraph children. -/
def local_ok (pf : Platform) (k : Codes) (n : cmark_node) : Prop :=
  (n.type = node_command → n.children = []) ∧
    (n.type = node_section → get_section_type pf n ≠ some k.details →
      ∀ x ∈ n.children, x.type = paragraph)

mutual
/-- The invariants of a single node hold for every node of a subtree. -/
def tree_ok (pf : Platform) (k : Codes) : cmark_node → Prop
  | cmark_node.mk t u c cs => local_ok pf k (cmark_node.mk t u c cs) ∧ trees_ok pf k cs
/-- The invariants of a single node hold for every node of the subtrees of a
sibling list. -/
def trees_ok (pf : Platform) (k : Codes) : List cmark_node → Prop
  | [] => True
  | n :: rest => tree_ok pf k n ∧ trees_ok pf k rest
end

/-- The top-level siblings of a traversal state, first to last. -/
def pass_state.siblings (s : pass_state) : List cmark_node :=
  s.prev.reverse ++ s.cur_next

/-- The outcome of section key parsing as the specification words it: parse
one whitespace-delimited word, skip whitespace; if the next character is `-`
the word is the key and the cursor ends after the `-` and the whitespace
following it, otherwise there is no key and the cursor is where it was. -/
def key_by_words (cur : List Char) : Option (List Char) × List Char :=
  if (((cur.dropWhile is_whitespace).dropWhile is_word_char).dropWhile is_whitespace).head? =
      some '-' then
    (some ((cur.dropWhile is_whitespace).takeWhile is_word_char),
      ((((cur.dropWhile is_whitespace).dropWhile is_word_char).dropWhile
        is_whitespace).tail).dropWhile is_whitespace)
  else
    (none, cur)

/-- A paragraph of two lines: text, a soft break, text. -/
def sample_two_line_paragraph : cmark_node :=
  cmark_node.mk paragraph 0 none
    [sample_text "Line one.", cmark_node.mk softbreak 0 none [], sample_text "Line two."]

theorem prev_details_none_nil (pf : Platform) (k : Codes) : prev_details pf k [] = none := by
  simp [prev_details]

theorem prev_details_some (pf : Platform) (k : Codes) (prev : List cmark_node) (pos : details_pos)
    (h : prev_details pf k prev = some pos) :
    prev = pos.skipped ++ pos.details :: pos.before ∧
    (∀ x ∈ pos.skipped, x.type = node_command) ∧
    pos.details.type = node_section ∧
    get_section_type pf pos.details = some k.details := by
  unfold prev_details at h
  have hsplit := List.takeWhile_append_dropWhile (fun d : cmark_node => decide (d.type = node_command)) prev
  cases hd : prev.dropWhile (fun d : cmark_node => decide (d.type = node_command)) with
  | nil => simp [hd] at h
  | cons d before =>
    simp only [hd] at h
    split at h
    · rename_i hc
      simp only [Bool.and_eq_true, decide_eq_true_eq, beq_iff_eq] at hc
      cases h
      refine ⟨?_, ?_, hc.1, hc.2⟩
      · simp only; rw [← hd]; exact hsplit.symm
      · intro x hx
        have := List.mem_takeWhile_imp hx
        simpa using this
    · cases h

theorem loop_iter_clear (pf : Platform) (k : Codes) (prev next cr : List cmark_node)
    (n : cmark_node) :
    loop_next (loop_body pf k ⟨prev, n :: next, false, cr⟩) =
      if n.type = node_section ∨ n.type = node_command then ⟨n :: prev, next, false, cr⟩
      else
        match prev_details pf k prev with
        | none =>
          ⟨cmark_node_append_child (create_node pf node_section k.details none) n :: prev, next,
            false, cr ++ [create_node pf node_section k.details none]⟩
        | some pos =>
          ⟨cmark_node_append_child pos.details n :: pos.before, pos.skipped.reverse ++ next,
            false, cr⟩ := by
  by_cases h1 : n.type = node_section
  · by_cases h2 : get_section_type pf n = some k.brief <;>
      simp [loop_body, loop_next, h1, h2]
  · by_cases h2 : n.type = node_command
    · simp [loop_body, loop_next, h1, h2]
    · simp only [loop_body, h1, h2, Bool.false_and, decide_False, Bool.false_eq_true, if_false,
        wrap_in_details, or_self, bne_iff_ne, ne_eq, not_false_eq_true, and_self, if_true,
        Bool.and_true, decide_True, decide_not, Bool.not_false]
      cases prev_details pf k prev <;> simp [loop_next, h1, h2]


theorem plain_count_cons (n : cmark_node) (l : List cmark_node) :
    plain_count (n :: l) =
      (if n.type = node_section ∨ n.type = node_command then 0 else 1) + plain_count l := by
  by_cases h1 : n.type = node_section
  · simp [plain_count, h1]
  · by_cases h2 : n.type = node_command
    · simp [plain_count, h2]
    · simp [plain_count, h1, h2, List.filter_cons, Nat.add_comm]

theorem plain_count_append_commands (cmds l : List cmark_node)
    (h : ∀ x ∈ cmds, x.type = node_command) :
    plain_count (cmds ++ l) = plain_count l := by
  induction cmds with
  | nil => rfl
  | cons c cs ih =>
    have hc : c.type = node_command := h c (List.mem_cons_self _ _)
    rw [List.cons_append, plain_count_cons, ih (fun x hx => h x (List.mem_cons_of_mem _ hx))]
    simp [hc]

theorem settle_commands (pf : Platform) (k : Codes) (cmds : List cmark_node)
    (h : ∀ x ∈ cmds, x.type = node_command) (acc : List cmark_node × List cmark_node) :
    settle pf k acc cmds = (cmds.reverse ++ acc.1, acc.2) := by
  induction cmds generalizing acc with
  | nil => rfl
  | cons c cs ih =>
    have hc : c.type = node_command := h c (List.mem_cons_self _ _)
    have hstep : settle_step pf k acc c = (c :: acc.1, acc.2) := by
      simp [settle_step, hc]
    show settle pf k (settle_step pf k acc c) cs = _
    rw [hstep, ih (fun x hx => h x (List.mem_cons_of_mem _ hx))]
    simp

theorem settle_append (pf : Platform) (k : Codes) (acc : List cmark_node × List cmark_node)
    (l1 l2 : List cmark_node) :
    settle pf k acc (l1 ++ l2) = settle pf k (settle pf k acc l1) l2 := by
  simp [settle, List.foldl_append]

theorem loop_clear (pf : Platform) (k : Codes) (fuel : Nat) :
    ∀ (prev l cr : List cmark_node), loop_measure ⟨prev, l, false, cr⟩ ≤ fuel →
      loop pf k fuel ⟨prev, l, false, cr⟩ =
        some ⟨(settle pf k (prev, cr) l).1, [], false, (settle pf k (prev, cr) l).2⟩ := by
  induction fuel with
  | zero =>
    intro prev l cr hm
    cases l with
    | nil => rfl
    | cons n next => simp [loop_measure] at hm
  | succ fuel ih =>
    intro prev l cr hm
    cases l with
    | nil => rfl
    | cons n next =>
      show loop pf k fuel (loop_next (loop_body pf k ⟨prev, n :: next, false, cr⟩)) = _
      rw [loop_iter_clear]
      show _ = some ⟨(settle pf k (settle_step pf k (prev, cr) n) next).1, [], false,
        (settle pf k (settle_step pf k (prev, cr) n) next).2⟩
      simp only [loop_measure, plain_count_cons, List.length_cons] at hm
      by_cases hsc : n.type = node_section ∨ n.type = node_command
      · simp only [hsc, if_true, settle_step, Nat.zero_add] at hm ⊢
        apply ih
        simp only [loop_measure, List.length_cons]
        have : prev.length + 1 + next.length + 1 = prev.length + (next.length + 1) + 1 := by omega
        rw [this]
        omega
      · simp only [hsc, if_false, settle_step] at hm ⊢
        have hmul : (1 + plain_count next) * (prev.length + (next.length + 1) + 1) =
            (prev.length + (next.length + 1) + 1) +
              plain_count next * (prev.length + (next.length + 1) + 1) := by ring
        rw [hmul] at hm
        cases hpd : prev_details pf k prev with
        | none =>
          simp only
          apply ih
          simp only [loop_measure, List.length_cons]
          have : prev.length + 1 + next.length + 1 = prev.length + (next.length + 1) + 1 := by omega
          rw [this]
          omega
        | some pos =>
          simp only
          obtain ⟨hprev, hcmds, -, -⟩ := prev_details_some pf k prev pos hpd
          rw [ih, settle_append, settle_commands pf k pos.skipped.reverse
            (fun x hx => hcmds x (List.mem_reverse.mp hx))]
          · simp
          · simp only [loop_measure, List.length_cons, List.length_append, List.length_reverse]
            rw [plain_count_append_commands _ _ (fun x hx => hcmds x (List.mem_reverse.mp hx))]
            have hlen : prev.length = pos.skipped.length + (pos.before.length + 1) := by
              rw [hprev]; simp
            rw [hlen] at hm
            have hle : plain_count next * (pos.before.length + 1 + (pos.skipped.length + next.length) + 1)
                ≤ plain_count next * (pos.skipped.length + (pos.before.length + 1) + (next.length + 1) + 1) := by
              apply Nat.mul_le_mul_left
              omega
            omega

theorem cmark_node_eta (n : cmark_node) :
    cmark_node.mk n.type n.user_data n.content n.children = n := by
  cases n; rfl

theorem loop_iter_first (pf : Platform) (k : Codes) (c : cmark_node) (rest : List cmark_node) :
    loop_next (loop_body pf k ⟨[], c :: rest, true, []⟩) =
      ⟨(settle_first pf k c).1, rest, false, (settle_first pf k c).2⟩ := by
  by_cases hp : c.type = paragraph
  · by_cases hb : paragraph_can_be_brief c = true
    · simp [loop_body, loop_next, settle_first, hp, hb]
    · simp [loop_body, loop_next, settle_first, hp, hb, wrap_in_details, prev_details]
  · have h := loop_iter_clear pf k [] rest [] c
    have hbody : loop_body pf k ⟨[], c :: rest, true, []⟩ =
        loop_body pf k ⟨[], c :: rest, false, []⟩ := by
      simp [loop_body, hp]
    rw [hbody, h]
    simp only [settle_first, hp, if_false, settle_step, prev_details_none_nil]
    split <;> rfl

theorem settle_first_length (pf : Platform) (k : Codes) (c : cmark_node) :
    (settle_first pf k c).1.length = 1 := by
  unfold settle_first settle_step
  simp only [prev_details_none_nil]
  split
  · split <;> rfl
  · split <;> rfl

/-- The traversal never exceeds its iteration bound, and its outcome is the
one summarised by `settle_all`. -/
theorem pass_eq (pf : Platform) (k : Codes) (root : cmark_node) :
    create_implicit_brief_details pf k root =
      some ⟨cmark_node.mk root.type root.user_data root.content
        (settle_all pf k root.children).1.reverse, (settle_all pf k root.children).2, none⟩ := by
  unfold create_implicit_brief_details
  cases hch : root.children with
  | nil => rfl
  | cons c rest =>
    have hb : loop_bound (c :: rest) =
        (rest.length + plain_count (c :: rest) * (rest.length + 1 + 1)) + 1 := by
      simp only [loop_bound, List.length_cons]; omega
    rw [hb]
    show (match loop pf k _ (loop_next (loop_body pf k ⟨[], c :: rest, true, []⟩)) with
      | none => none
      | some s => _) = _
    rw [loop_iter_first, loop_clear]
    · simp [settle_all]
    · simp only [loop_measure, settle_first_length, plain_count_cons]
      have : 1 + rest.length + 1 = rest.length + 1 + 1 := by omega
      rw [this]
      have : plain_count rest * (rest.length + 1 + 1) ≤
          ((if c.type = node_section ∨ c.type = node_command then 0 else 1) + plain_count rest) *
            (rest.length + 1 + 1) := Nat.mul_le_mul_right _ (Nat.le_add_left _ _)
      omega

theorem raw_roundtrip (pf : Platform) (code : Nat) (h : code < 2 ^ pf.unsigned_bits) :
    code % 2 ^ pf.pointer_bits % 2 ^ pf.unsigned_bits = code := by
  have hle : 2 ^ pf.unsigned_bits ≤ 2 ^ pf.pointer_bits :=
    Nat.pow_le_pow_right (by decide) pf.static_assert
  rw [Nat.mod_eq_of_lt (Nat.lt_of_lt_of_le h hle), Nat.mod_eq_of_lt h]

theorem create_node_eq (pf : Platform) (t : cmark_node_type) (code : Nat)
    (str : Option (List Char)) :
    create_node pf t code str = cmark_node.mk t (code % 2 ^ pf.pointer_bits) str [] := rfl

theorem append_child_create (pf : Platform) (t : cmark_node_type) (code : Nat)
    (str : Option (List Char)) (n : cmark_node) :
    cmark_node_append_child (create_node pf t code str) n =
      cmark_node.mk t (code % 2 ^ pf.pointer_bits) str [n] := rfl

theorem get_section_type_mk (pf : Platform) (code : Nat) (str : Option (List Char))
    (cs : List cmark_node) (h : code < 2 ^ pf.unsigned_bits) :
    get_section_type pf (cmark_node.mk node_section (code % 2 ^ pf.pointer_bits) str cs) =
      some code := by
  simp [get_section_type, get_raw_command_type, cmark_node.type, cmark_node.user_data,
    raw_roundtrip pf code h]

theorem extends_node_refl (a : cmark_node) : extends_node a a :=
  ⟨rfl, rfl, rfl, List.prefix_refl _⟩

theorem extends_node_trans {a b c : cmark_node} (h1 : extends_node a b) (h2 : extends_node b c) :
    extends_node a c :=
  ⟨h2.1.trans h1.1, h2.2.1.trans h1.2.1, h2.2.2.1.trans h1.2.2.1,
    List.IsPrefix.trans h1.2.2.2 h2.2.2.2⟩

theorem extends_node_append (d n : cmark_node) : extends_node d (cmark_node_append_child d n) :=
  ⟨rfl, rfl, rfl, List.prefix_append _ _⟩

theorem is_details_of_extends (pf : Platform) (k : Codes) {a b : cmark_node}
    (h : extends_node a b) (ha : is_details pf k a) : is_details pf k b := by
  obtain ⟨ht, hu, -, -⟩ := h
  unfold is_details get_section_type get_raw_command_type at *
  rw [ht, hu]
  exact ha

theorem is_details_of_extends_rev (pf : Platform) (k : Codes) {a b : cmark_node}
    (h : extends_node a b) (hb : is_details pf k b) : is_details pf k a := by
  obtain ⟨ht, hu, -, -⟩ := h
  unfold is_details get_section_type get_raw_command_type at *
  rw [← ht, ← hu]
  exact hb

theorem keeps_node_refl (pf : Platform) (k : Codes) (a : cmark_node) : keeps_node pf k a a :=
  ⟨extends_node_refl a, fun _ => rfl⟩

theorem keeps_node_trans (pf : Platform) (k : Codes) {a b c : cmark_node}
    (h1 : keeps_node pf k a b) (h2 : keeps_node pf k b c) : keeps_node pf k a c := by
  refine ⟨extends_node_trans h1.1 h2.1, fun hna => ?_⟩
  have hb : b = a := h1.2 hna
  subst hb
  exact h2.2 hna

/-- The three possible effects of one iteration once `need_brief` is clear:
the node is a section or command and is left alone; or a new details section
takes its place; or it is moved under an earlier details section. -/
theorem settle_step_cases (pf : Platform) (k : Codes) (acc : List cmark_node × List cmark_node)
    (n : cmark_node) :
    ((n.type = node_section ∨ n.type = node_command) ∧
        settle_step pf k acc n = (n :: acc.1, acc.2)) ∨
    (¬ (n.type = node_section ∨ n.type = node_command) ∧ prev_details pf k acc.1 = none ∧
        settle_step pf k acc n =
          (cmark_node_append_child (create_node pf node_section k.details none) n :: acc.1,
            acc.2 ++ [create_node pf node_section k.details none])) ∨
    (¬ (n.type = node_section ∨ n.type = node_command) ∧
        ∃ cmds d before, acc.1 = cmds ++ d :: before ∧ (∀ x ∈ cmds, x.type = node_command) ∧
          is_details pf k d ∧
          settle_step pf k acc n = (cmds ++ cmark_node_append_child d n :: before, acc.2)) := by
  by_cases hsc : n.type = node_section ∨ n.type = node_command
  · left
    exact ⟨hsc, by simp [settle_step, hsc]⟩
  · right
    cases hpd : prev_details pf k acc.1 with
    | none =>
      left
      exact ⟨hsc, rfl, by simp [settle_step, hsc, hpd]⟩
    | some pos =>
      right
      obtain ⟨h1, h2, h3, h4⟩ := prev_details_some pf k acc.1 pos hpd
      exact ⟨hsc, pos.skipped, pos.details, pos.before, h1, h2, ⟨h3, h4⟩,
        by simp [settle_step, hsc, hpd]⟩

theorem settle_cons (pf : Platform) (k : Codes) (acc : List cmark_node × List cmark_node)
    (n : cmark_node) (l : List cmark_node) :
    settle pf k acc (n :: l) = settle pf k (settle_step pf k acc n) l := rfl

theorem settle_nil (pf : Platform) (k : Codes) (acc : List cmark_node × List cmark_node) :
    settle pf k acc [] = acc := rfl

/-- Invariant rule for the iterations once `need_brief` is clear. -/
theorem settle_induct (pf : Platform) (k : Codes)
    (P : List cmark_node × List cmark_node → Prop) (l : List cmark_node)
    (hstep : ∀ acc n, n ∈ l → P acc → P (settle_step pf k acc n))
    (acc : List cmark_node × List cmark_node) (h0 : P acc) : P (settle pf k acc l) := by
  induction l generalizing acc with
  | nil => exact h0
  | cons n l ih =>
    rw [settle_cons]
    exact ih (fun a m hm ha => hstep a m (List.mem_cons_of_mem _ hm) ha) _
      (hstep acc n (List.mem_cons_self _ _) h0)

/-- Every previous sibling survives an iteration, possibly with a child
appended if it is a details section. -/
theorem settle_step_image (pf : Platform) (k : Codes) (acc : List cmark_node × List cmark_node)
    (n : cmark_node) (a : cmark_node) (ha : a ∈ acc.1) :
    ∃ b ∈ (settle_step pf k acc n).1, keeps_node pf k a b := by
  rcases settle_step_cases pf k acc n with ⟨-, h⟩ | ⟨-, -, h⟩ | ⟨-, cmds, d, before, hp, -, hd, h⟩
  · rw [h]; exact ⟨a, List.mem_cons_of_mem _ ha, keeps_node_refl pf k a⟩
  · rw [h]; exact ⟨a, List.mem_cons_of_mem _ ha, keeps_node_refl pf k a⟩
  · rw [h]
    rw [hp] at ha
    rcases List.mem_append.mp ha with hc | hc
    · exact ⟨a, List.mem_append_left _ hc, keeps_node_refl pf k a⟩
    · rcases List.mem_cons.mp hc with hc | hc
      · subst hc
        exact ⟨cmark_node_append_child a n,
          List.mem_append_right _ (List.mem_cons_self _ _),
          extends_node_append a n, fun hna => absurd hd hna⟩
      · exact ⟨a, List.mem_append_right _ (List.mem_cons_of_mem _ hc), keeps_node_refl pf k a⟩

theorem getLast?_append_of_ne_nil {α : Type} (l l' : List α) (h : l' ≠ []) :
    (l ++ l').getLast? = l'.getLast? := by
  induction l with
  | nil => rfl
  | cons x xs ih =>
    cases hx : xs ++ l' with
    | nil =>
      have := List.append_eq_nil.mp hx
      exact absurd this.2 h
    | cons y ys => rw [List.cons_append, hx, List.getLast?_cons_cons, ← hx, ih]

/-- The first top-level node stays first through an iteration, possibly with
a child appended if it is a details section. -/
theorem settle_step_last (pf : Platform) (k : Codes) (acc : List cmark_node × List cmark_node)
    (n : cmark_node) (a : cmark_node) (ha : acc.1.getLast? = some a) :
    ∃ b, (settle_step pf k acc n).1.getLast? = some b ∧ keeps_node pf k a b := by
  have hne : acc.1 ≠ [] := by
    intro h; rw [h] at ha; simp at ha
  rcases settle_step_cases pf k acc n with ⟨-, h⟩ | ⟨-, -, h⟩ | ⟨-, cmds, d, before, hp, -, hd, h⟩
  · rw [h]
    refine ⟨a, ?_, keeps_node_refl pf k a⟩
    show ([n] ++ acc.1).getLast? = some a
    rw [getLast?_append_of_ne_nil _ _ hne]; exact ha
  · rw [h]
    refine ⟨a, ?_, keeps_node_refl pf k a⟩
    show ([_] ++ acc.1).getLast? = some a
    rw [getLast?_append_of_ne_nil _ _ hne]; exact ha
  · rw [h]
    rw [hp] at ha
    cases before with
    | nil =>
      rw [getLast?_append_of_ne_nil _ _ (List.cons_ne_nil _ _)] at ha ⊢
      simp only [List.getLast?_singleton, Option.some.injEq] at ha
      subst ha
      exact ⟨_, rfl, extends_node_append _ n, fun hna => absurd hd hna⟩
    | cons b bs =>
      refine ⟨a, ?_, keeps_node_refl pf k a⟩
      rw [getLast?_append_of_ne_nil _ _ (List.cons_ne_nil _ _)] at ha ⊢
      rw [List.getLast?_cons_cons] at ha ⊢
      exact ha

theorem settle_last (pf : Platform) (k : Codes) (l : List cmark_node)
    (acc : List cmark_node × List cmark_node) (a : cmark_node)
    (ha : acc.1.getLast? = some a) :
    ∃ b, (settle pf k acc l).1.getLast? = some b ∧ keeps_node pf k a b := by
  refine settle_induct pf k (fun acc' => ∃ b, acc'.1.getLast? = some b ∧ keeps_node pf k a b) l
    ?_ acc ⟨a, ha, keeps_node_refl pf k a⟩
  rintro acc' n - ⟨b, hb, hab⟩
  obtain ⟨c, hc, hbc⟩ := settle_step_last pf k acc' n b hb
  exact ⟨c, hc, keeps_node_trans pf k hab hbc⟩

theorem settle_image (pf : Platform) (k : Codes) (l : List cmark_node)
    (acc : List cmark_node × List cmark_node) (a : cmark_node) (ha : a ∈ acc.1) :
    ∃ b ∈ (settle pf k acc l).1, keeps_node pf k a b := by
  refine settle_induct pf k (fun acc' => ∃ b ∈ acc'.1, keeps_node pf k a b) l
    ?_ acc ⟨a, ha, keeps_node_refl pf k a⟩
  rintro acc' n - ⟨b, hb, hab⟩
  obtain ⟨c, hc, hbc⟩ := settle_step_image pf k acc' n b hb
  exact ⟨c, hc, keeps_node_trans pf k hab hbc⟩

/-- Once `need_brief` is clear, the only nodes created are details sections
without key. -/
theorem settle_created (pf : Platform) (k : Codes) (l : List cmark_node)
    (acc : List cmark_node × List cmark_node) :
    ∃ newc, (settle pf k acc l).2 = acc.2 ++ newc ∧
      ∀ c ∈ newc, c = create_node pf node_section k.details none := by
  refine settle_induct pf k (fun acc' => ∃ newc, acc'.2 = acc.2 ++ newc ∧
      ∀ c ∈ newc, c = create_node pf node_section k.details none) l ?_ acc
    ⟨[], by simp, by simp⟩
  rintro acc' n - ⟨newc, h1, h2⟩
  rcases settle_step_cases pf k acc' n with ⟨-, h⟩ | ⟨-, -, h⟩ | ⟨-, cmds, d, before, -, -, -, h⟩
  · rw [h]; exact ⟨newc, h1, h2⟩
  · rw [h]
    refine ⟨newc ++ [create_node pf node_section k.details none], ?_, ?_⟩
    · simp [h1]
    · intro c hc
      rcases List.mem_append.mp hc with hc | hc
      · exact h2 c hc
      · simpa using hc
  · rw [h]; exact ⟨newc, h1, h2⟩

theorem not_is_details_brief (pf : Platform) (k : Codes) (hb : k.brief < 2 ^ pf.unsigned_bits)
    (hne : k.brief ≠ k.details) (cs : List cmark_node) :
    ¬ is_details pf k (cmark_node.mk node_section (k.brief % 2 ^ pf.pointer_bits) none cs) := by
  rintro ⟨-, h⟩
  rw [get_section_type_mk pf k.brief none cs hb] at h
  exact hne (Option.some.inj h)

theorem root_children_of_pass (pf : Platform) (k : Codes) (root : cmark_node)
    (r : postprocess_result) (h : create_implicit_brief_details pf k root = some r) :
    r.root.children = (settle_all pf k root.children).1.reverse ∧
      r.created = (settle_all pf k root.children).2 ∧ r.new_root = none ∧
      r.root.type = root.type ∧ r.root.user_data = root.user_data ∧
      r.root.content = root.content := by
  rw [pass_eq] at h
  cases h
  exact ⟨rfl, rfl, rfl, rfl, rfl, rfl⟩

/-- The first node rule in terms of the test `paragraph_can_be_brief`: when
the first top-level child `p` of the root is a paragraph, the first top-level
child of the result is the new brief section holding `p` alone if the test
answers true, and the new details section whose first child is `p` if it
answers false. -/
theorem first_paragraph_rule_by_test (pf : Platform) (k : Codes)
    (hb : k.brief < 2 ^ pf.unsigned_bits) (hd : k.details < 2 ^ pf.unsigned_bits)
    (hne : k.brief ≠ k.details) (root p : cmark_node) (rest : List cmark_node)
    (hroot : root.children = p :: rest) (hp : p.type = paragraph) :
    ∃ r x out, create_implicit_brief_details pf k root = some r ∧
      r.root.children = x :: out ∧
      x.type = node_section ∧ get_section_key x = some none ∧
      ((get_section_type pf x = some k.brief ∧ x.children = [p]) ↔
        paragraph_can_be_brief p = true) ∧
      (paragraph_can_be_brief p = true →
        x = cmark_node_append_child (create_node pf node_section k.brief none) p ∧
        create_node pf node_section k.brief none ∈ r.created) ∧
      (paragraph_can_be_brief p = false →
        get_section_type pf x = some k.details ∧
        (∃ more, x = cmark_node.mk node_section (k.details % 2 ^ pf.pointer_bits) none
          (p :: more)) ∧
        create_node pf node_section k.details none ∈ r.created ∧
        ∀ c ∈ r.created, get_section_type pf c ≠ some k.brief) := by
  obtain ⟨r, hr⟩ : ∃ r, create_implicit_brief_details pf k root = some r := ⟨_, pass_eq pf k root⟩
  obtain ⟨hch, hcr, -⟩ := root_children_of_pass pf k root r hr
  rw [hroot] at hch hcr
  simp only [settle_all] at hch hcr
  obtain ⟨newc, hnewc, hnew⟩ := settle_created pf k rest (settle_first pf k p)
  by_cases hbrief : paragraph_can_be_brief p = true
  · -- implicit brief
    have hfirst : settle_first pf k p =
        ([cmark_node.mk node_section (k.brief % 2 ^ pf.pointer_bits) none [p]],
          [create_node pf node_section k.brief none]) := by
      simp [settle_first, hp, hbrief, append_child_create]
    obtain ⟨b, hlast, hkeep⟩ := settle_last pf k rest (settle_first pf k p)
      (cmark_node.mk node_section (k.brief % 2 ^ pf.pointer_bits) none [p]) (by rw [hfirst]; rfl)
    have hbeq := hkeep.2 (not_is_details_brief pf k hb hne [p])
    subst hbeq
    rw [← List.head?_reverse, ← hch] at hlast
    cases hout : r.root.children with
    | nil => rw [hout] at hlast; cases hlast
    | cons x out =>
      rw [hout] at hlast
      cases hlast
      refine ⟨r, _, out, hr, hout, rfl, rfl, ?_, ?_, ?_⟩
      · exact ⟨fun _ => hbrief, fun _ => ⟨get_section_type_mk pf k.brief none [p] hb, rfl⟩⟩
      · intro _
        refine ⟨rfl, ?_⟩
        rw [hcr, hnewc, hfirst]
        simp
      · intro h; rw [hbrief] at h; cases h
  · -- multi-line paragraph: details
    have hfirst : settle_first pf k p =
        ([cmark_node.mk node_section (k.details % 2 ^ pf.pointer_bits) none [p]],
          [create_node pf node_section k.details none]) := by
      simp [settle_first, hp, hbrief, append_child_create]
    obtain ⟨b, hlast, hkeep⟩ := settle_last pf k rest (settle_first pf k p)
      (cmark_node.mk node_section (k.details % 2 ^ pf.pointer_bits) none [p]) (by rw [hfirst]; rfl)
    rw [← List.head?_reverse, ← hch] at hlast
    obtain ⟨⟨ht, hu, hc, more, hmore⟩, -⟩ := hkeep
    have hbform : b = cmark_node.mk node_section (k.details % 2 ^ pf.pointer_bits) none
        (p :: more) := by
      cases b with
      | mk t u c cs =>
        simp only [cmark_node.type, cmark_node.user_data, cmark_node.content,
          cmark_node.children] at ht hu hc hmore
        subst ht hu hc
        rw [← hmore]; rfl
    subst hbform
    have hcreated : ∀ c ∈ r.created, get_section_type pf c = some k.details := by
      intro c hc
      rw [hcr, hnewc, hfirst] at hc
      have : c = create_node pf node_section k.details none := by
        rcases List.mem_append.mp hc with hc | hc
        · simpa using hc
        · exact hnew c hc
      rw [this, create_node_eq]
      exact get_section_type_mk pf k.details none [] hd
    cases hout : r.root.children with
    | nil => rw [hout] at hlast; cases hlast
    | cons x out =>
      rw [hout] at hlast
      cases hlast
      have hx := get_section_type_mk pf k.details none (p :: more) hd
      refine ⟨r, _, out, hr, hout, rfl, rfl, ?_, ?_, ?_⟩
      · constructor
        · rintro ⟨h, -⟩
          rw [hx] at h
          exact absurd (Option.some.inj h).symm hne
        · intro h; exact absurd h hbrief
      · intro h; exact absurd h hbrief
      · intro _
        refine ⟨hx, ⟨more, rfl⟩, ?_, ?_⟩
        · rw [hcr, hnewc, hfirst]; simp
        · intro c hc h
          rw [hcreated c hc] at h
          exact absurd (Option.some.inj h).symm hne

/-- What `paragraph_can_be_brief` tests: no direct child of the paragraph is a
soft break or a hard break. -/
theorem paragraph_can_be_brief_iff (p : cmark_node) :
    paragraph_can_be_brief p = true ↔
      ∀ c ∈ p.children, c.type ≠ softbreak ∧ c.type ≠ linebreak := by
  simp [paragraph_can_be_brief, List.all_eq_true]

theorem paragraph_can_be_brief_false_iff (p : cmark_node) :
    paragraph_can_be_brief p = false ↔
      ∃ c ∈ p.children, c.type = softbreak ∨ c.type = linebreak := by
  rw [← Bool.not_eq_true, paragraph_can_be_brief_iff]
  constructor
  · intro h
    by_contra hno
    apply h
    intro c hc
    constructor
    · intro hs; exact hno ⟨c, hc, Or.inl hs⟩
    · intro hl; exact hno ⟨c, hc, Or.inr hl⟩
  · rintro ⟨c, hc, hsl⟩ hall
    rcases hsl with hs | hl
    · exact (hall c hc).1 hs
    · exact (hall c hc).2 hl

/-- C1. Structuring pass, first node rule. When the first top-level child `p`
of the root is a paragraph, the pass returns, and the first top-level child of
the result is a section without key, which is tagged brief with `p` as its
sole child if and only if no direct child of `p` is a soft break or a hard
break. In that case it is the newly created brief node with `p` appended;
otherwise (some direct child of `p` is a soft or hard break) it is the newly
created details node whose first child is `p` unchanged, and no created node
is tagged brief. -/
theorem first_paragraph_rule (pf : Platform) (k : Codes)
    (hb : k.brief < 2 ^ pf.unsigned_bits) (hd : k.details < 2 ^ pf.unsigned_bits)
    (hne : k.brief ≠ k.details) (root p : cmark_node) (rest : List cmark_node)
    (hroot : root.children = p :: rest) (hp : p.type = paragraph) :
    ∃ r x out, create_implicit_brief_details pf k root = some r ∧
      r.root.children = x :: out ∧
      x.type = node_section ∧ get_section_key x = some none ∧
      ((get_section_type pf x = some k.brief ∧ x.children = [p]) ↔
        ∀ c ∈ p.children, c.type ≠ softbreak ∧ c.type ≠ linebreak) ∧
      ((∀ c ∈ p.children, c.type ≠ softbreak ∧ c.type ≠ linebreak) →
        x = cmark_node_append_child (create_node pf node_section k.brief none) p ∧
        create_node pf node_section k.brief none ∈ r.created) ∧
      ((∃ c ∈ p.children, c.type = softbreak ∨ c.type = linebreak) →
        get_section_type pf x = some k.details ∧
        (∃ more, x = cmark_node.mk node_section (k.details % 2 ^ pf.pointer_bits) none
          (p :: more)) ∧
        create_node pf node_section k.details none ∈ r.created ∧
        ∀ c ∈ r.created, get_section_type pf c ≠ some k.brief) := by
  obtain ⟨r, x, out, hr, hout, hx, hkey, hiff, hyes, hno⟩ :=
    first_paragraph_rule_by_test pf k hb hd hne root p rest hroot hp
  refine ⟨r, x, out, hr, hout, hx, hkey, ?_, ?_, ?_⟩
  · rw [← paragraph_can_be_brief_iff]; exact hiff
  · intro h
    exact hyes ((paragraph_can_be_brief_iff p).mpr h)
  · intro h
    exact hno ((paragraph_can_be_brief_false_iff p).mpr h)

/-- Witness of C1. Scenario A: the document `[paragraph "Short one-line
summary."]` becomes `[section(brief) -> paragraph]`. Scenario B: the document
`[paragraph "Line one." softbreak "Line two."]` becomes `[section(details) ->
paragraph]`, the paragraph unchanged. -/
theorem first_paragraph_rule_witness :
    (create_implicit_brief_details sample_platform sample_codes
        (sample_document [sample_paragraph "Short one-line summary."]) =
      some ⟨sample_document [cmark_node.mk node_section 10 none
          [sample_paragraph "Short one-line summary."]],
        [cmark_node.mk node_section 10 none []], none⟩ ∧
    ∃ r x out, create_implicit_brief_details sample_platform sample_codes
        (sample_document [sample_paragraph "Short one-line summary."]) = some r ∧
      r.root.children = x :: out ∧
      x.type = node_section ∧ get_section_key x = some none ∧
      ((get_section_type sample_platform x = some sample_codes.brief ∧
          x.children = [sample_paragraph "Short one-line summary."]) ↔
        ∀ c ∈ (sample_paragraph "Short one-line summary.").children,
          c.type ≠ softbreak ∧ c.type ≠ linebreak) ∧
      ((∀ c ∈ (sample_paragraph "Short one-line summary.").children,
          c.type ≠ softbreak ∧ c.type ≠ linebreak) →
        x = cmark_node_append_child
            (create_node sample_platform node_section sample_codes.brief none)
            (sample_paragraph "Short one-line summary.") ∧
        create_node sample_platform node_section sample_codes.brief none ∈ r.created) ∧
      ((∃ c ∈ (sample_paragraph "Short one-line summary.").children,
          c.type = softbreak ∨ c.type = linebreak) →
        get_section_type sample_platform x = some sample_codes.details ∧
        (∃ more, x = cmark_node.mk node_section
          (sample_codes.details % 2 ^ sample_platform.pointer_bits) none
          (sample_paragraph "Short one-line summary." :: more)) ∧
        create_node sample_platform node_section sample_codes.details none ∈ r.created ∧
        ∀ c ∈ r.created, get_section_type sample_platform c ≠ some sample_codes.brief)) ∧
    (create_implicit_brief_details sample_platform sample_codes
        (sample_document [sample_two_line_paragraph]) =
      some ⟨sample_document [cmark_node.mk node_section 11 none [sample_two_line_paragraph]],
        [cmark_node.mk node_section 11 none []], none⟩ ∧
    (∃ c ∈ sample_two_line_paragraph.children, c.type = softbreak ∨ c.type = linebreak) ∧
    ∃ r x out, create_implicit_brief_details sample_platform sample_codes
        (sample_document [sample_two_line_paragraph]) = some r ∧
      r.root.children = x :: out ∧
      x.type = node_section ∧ get_section_key x = some none ∧
      ((get_section_type sample_platform x = some sample_codes.brief ∧
          x.children = [sample_two_line_paragraph]) ↔
        ∀ c ∈ sample_two_line_paragraph.children,
          c.type ≠ softbreak ∧ c.type ≠ linebreak) ∧
      ((∀ c ∈ sample_two_line_paragraph.children,
          c.type ≠ softbreak ∧ c.type ≠ linebreak) →
        x = cmark_node_append_child
            (create_node sample_platform node_section sample_codes.brief none)
            sample_two_line_paragraph ∧
        create_node sample_platform node_section sample_codes.brief none ∈ r.created) ∧
      ((∃ c ∈ sample_two_line_paragraph.children,
          c.type = softbreak ∨ c.type = linebreak) →
        get_section_type sample_platform x = some sample_codes.details ∧
        (∃ more, x = cmark_node.mk node_section
          (sample_codes.details % 2 ^ sample_platform.pointer_bits) none
          (sample_two_line_paragraph :: more)) ∧
        create_node sample_platform node_section sample_codes.details none ∈ r.created ∧
        ∀ c ∈ r.created, get_section_type sample_platform c ≠ some sample_codes.brief)) :=
  ⟨⟨rfl, first_paragraph_rule sample_platform sample_codes (by decide) (by decide) (by decide)
    (sample_document [sample_paragraph "Short one-line summary."])
    (sample_paragraph "Short one-line summary.") [] rfl rfl⟩,
   ⟨rfl, ⟨cmark_node.mk softbreak 0 none [], by simp [sample_two_line_paragraph,
      cmark_node.children], Or.inl rfl⟩,
    first_paragraph_rule sample_platform sample_codes (by decide) (by decide) (by decide)
      (sample_document [sample_two_line_paragraph]) sample_two_line_paragraph [] rfl rfl⟩⟩

theorem mod_pointer (pf : Platform) (code : Nat) (h : code < 2 ^ pf.unsigned_bits) :
    code % 2 ^ pf.pointer_bits = code :=
  Nat.mod_eq_of_lt (Nat.lt_of_lt_of_le h (Nat.pow_le_pow_right (by decide) pf.static_assert))

theorem prev_details_cons_details (pf : Platform) (k : Codes) (d : cmark_node)
    (before : List cmark_node) (hd : is_details pf k d) :
    prev_details pf k (d :: before) = some ⟨[], d, before⟩ := by
  obtain ⟨ht, hs⟩ := hd
  simp [prev_details, ht, hs]

theorem prev_details_cons_other (pf : Platform) (k : Codes) (d : cmark_node)
    (before : List cmark_node) (hc : d.type ≠ node_command) (hd : ¬ is_details pf k d) :
    prev_details pf k (d :: before) = none := by
  unfold is_details at hd
  simp only [prev_details, List.dropWhile_cons, hc, decide_False, Bool.false_eq_true, if_false]
  split
  · rename_i h
    simp only [Bool.and_eq_true, decide_eq_true_eq, beq_iff_eq] at h
    exact absurd h hd
  · rfl

/-- Consecutive blocks that are neither section nor command, met right after a
details section, all become the last children of that section, in order. -/
theorem settle_into_details (pf : Platform) (k : Codes) (bs : List cmark_node)
    (hplain : ∀ b ∈ bs, b.type ≠ node_section ∧ b.type ≠ node_command) :
    ∀ (d : cmark_node) (before cr : List cmark_node), is_details pf k d →
      settle pf k (d :: before, cr) bs =
        (cmark_node.mk d.type d.user_data d.content (d.children ++ bs) :: before, cr) := by
  induction bs with
  | nil =>
    intro d before cr _
    simp [settle_nil, cmark_node_eta]
  | cons b bs ih =>
    intro d before cr hd
    have hb := hplain b (List.mem_cons_self _ _)
    have hstep : settle_step pf k (d :: before, cr) b =
        (cmark_node_append_child d b :: before, cr) := by
      simp [settle_step, hb.1, hb.2, prev_details_cons_details pf k d before hd]
    rw [settle_cons, hstep,
      ih (fun x hx => hplain x (List.mem_cons_of_mem _ hx)) _ before cr
        (is_details_of_extends pf k (extends_node_append d b) hd)]
    simp [cmark_node_append_child, cmark_node.type, cmark_node.user_data, cmark_node.content,
      cmark_node.children]

theorem settle_all_brief_then_blocks (pf : Platform) (k : Codes)
    (hb : k.brief < 2 ^ pf.unsigned_bits) (hd : k.details < 2 ^ pf.unsigned_bits)
    (hne : k.brief ≠ k.details) (p b : cmark_node) (bs : List cmark_node)
    (hp : p.type = paragraph) (hbrief : paragraph_can_be_brief p = true)
    (hplain : ∀ x ∈ b :: bs, x.type ≠ node_section ∧ x.type ≠ node_command) :
    settle_all pf k (p :: b :: bs) =
      ([cmark_node.mk node_section k.details none (b :: bs),
          cmark_node.mk node_section k.brief none [p]],
        [cmark_node.mk node_section k.brief none [],
          cmark_node.mk node_section k.details none []]) := by
  have hb1 := hplain b (List.mem_cons_self _ _)
  simp only [settle_all]
  have hfirst : settle_first pf k p =
      ([cmark_node.mk node_section (k.brief % 2 ^ pf.pointer_bits) none [p]],
        [create_node pf node_section k.brief none]) := by
    simp [settle_first, hp, hbrief, append_child_create]
  have hstep : settle_step pf k
      ([cmark_node.mk node_section (k.brief % 2 ^ pf.pointer_bits) none [p]],
        [create_node pf node_section k.brief none]) b =
      ([cmark_node.mk node_section (k.details % 2 ^ pf.pointer_bits) none [b],
          cmark_node.mk node_section (k.brief % 2 ^ pf.pointer_bits) none [p]],
        [create_node pf node_section k.brief none,
          create_node pf node_section k.details none]) := by
    simp [settle_step, hb1.1, hb1.2, append_child_create,
      prev_details_cons_other pf k _ [] (by simp [cmark_node.type])
        (not_is_details_brief pf k hb hne [p])]
  rw [hfirst, settle_cons, hstep,
    settle_into_details pf k bs (fun x hx => hplain x (List.mem_cons_of_mem _ hx))
      (cmark_node.mk node_section (k.details % 2 ^ pf.pointer_bits) none [b]) _ _
      ⟨rfl, get_section_type_mk pf k.details none [b] hd⟩]
  simp [cmark_node.type, cmark_node.user_data, cmark_node.content, cmark_node.children,
    create_node_eq, mod_pointer pf _ hb, mod_pointer pf _ hd]

/-- C2. Structuring pass, merging of consecutive content. When the top-level
children are a single-line paragraph `p` followed by one or more blocks `bs`
that are neither section nor command nodes, the pass returns and the root has
exactly two children: a keyless brief section holding `p`, and one keyless
details section whose children are `bs` in their original order; the two
sections are the only nodes created. -/
theorem merge_consecutive_blocks (pf : Platform) (k : Codes)
    (hb : k.brief < 2 ^ pf.unsigned_bits) (hd : k.details < 2 ^ pf.unsigned_bits)
    (hne : k.brief ≠ k.details) (root p : cmark_node) (bs : List cmark_node)
    (hroot : root.children = p :: bs) (hp : p.type = paragraph)
    (hbrief : paragraph_can_be_brief p = true) (hbs : bs ≠ [])
    (hplain : ∀ b ∈ bs, b.type ≠ node_section ∧ b.type ≠ node_command) :
    ∃ r, create_implicit_brief_details pf k root = some r ∧
      r.root.children =
        [cmark_node.mk node_section k.brief none [p],
          cmark_node.mk node_section k.details none bs] ∧
      get_section_type pf (cmark_node.mk node_section k.brief none [p]) = some k.brief ∧
      get_section_type pf (cmark_node.mk node_section k.details none bs) = some k.details ∧
      r.created = [cmark_node.mk node_section k.brief none [],
        cmark_node.mk node_section k.details none []] := by
  cases bs with
  | nil => exact absurd rfl hbs
  | cons b bs =>
    have hall := settle_all_brief_then_blocks pf k hb hd hne p b bs hp hbrief hplain
    refine ⟨_, pass_eq pf k root, ?_, ?_, ?_, ?_⟩
    · rw [hroot, hall]; rfl
    · have := get_section_type_mk pf k.brief none [p] hb
      rwa [mod_pointer pf _ hb] at this
    · have := get_section_type_mk pf k.details none (b :: bs) hd
      rwa [mod_pointer pf _ hd] at this
    · rw [hroot, hall]

/-- Witness of C2 (scenario D): `[paragraph "Brief."], [list], [code block]`
becomes `[section(brief) -> paragraph], [section(details) -> list, code
block]`. -/
theorem merge_consecutive_blocks_witness :
    ∃ r, create_implicit_brief_details sample_platform sample_codes
        (sample_document [sample_paragraph "Brief.", cmark_node.mk list 0 none [],
          cmark_node.mk code_block 0 (some "x".toList) []]) = some r ∧
      r.root.children =
        [cmark_node.mk node_section sample_codes.brief none [sample_paragraph "Brief."],
          cmark_node.mk node_section sample_codes.details none
            [cmark_node.mk list 0 none [], cmark_node.mk code_block 0 (some "x".toList) []]] ∧
      get_section_type sample_platform
        (cmark_node.mk node_section sample_codes.brief none [sample_paragraph "Brief."]) =
          some sample_codes.brief ∧
      get_section_type sample_platform
        (cmark_node.mk node_section sample_codes.details none
          [cmark_node.mk list 0 none [], cmark_node.mk code_block 0 (some "x".toList) []]) =
          some sample_codes.details ∧
      r.created = [cmark_node.mk node_section sample_codes.brief none [],
        cmark_node.mk node_section sample_codes.details none []] :=
  merge_consecutive_blocks sample_platform sample_codes (by decide) (by decide) (by decide)
    (sample_document [sample_paragraph "Brief.", cmark_node.mk list 0 none [],
      cmark_node.mk code_block 0 (some "x".toList) []])
    (sample_paragraph "Brief.")
    [cmark_node.mk list 0 none [], cmark_node.mk code_block 0 (some "x".toList) []]
    rfl rfl rfl (by simp) (by simp [cmark_node.type])

theorem prev_details_cons_command (pf : Platform) (k : Codes) (x : cmark_node)
    (xs : List cmark_node) (hx : x.type = node_command) (h : prev_details pf k xs = none) :
    prev_details pf k (x :: xs) = none := by
  unfold prev_details at h ⊢
  simp only [List.dropWhile_cons, hx, decide_True, if_true]
  cases hdw : List.dropWhile (fun d : cmark_node => decide (d.type = node_command)) xs with
  | nil => rfl
  | cons d before =>
    rw [hdw] at h
    simp only at h ⊢
    split at h
    · cases h
    · rename_i hc
      rw [if_neg hc]

/-- Function `prev_details` returns null when the nearest previous sibling that is not
a command is missing or is not a details section. -/
theorem prev_details_none_of_nearest (pf : Platform) (k : Codes) (prev : List cmark_node)
    (h : ∀ d, prev.find? (fun x => x.type != node_command) = some d → ¬ is_details pf k d) :
    prev_details pf k prev = none := by
  induction prev with
  | nil => exact prev_details_none_nil pf k
  | cons x xs ih =>
    by_cases hx : x.type = node_command
    · apply prev_details_cons_command pf k x xs hx
      apply ih
      intro d hd
      apply h d
      simp [List.find?_cons, hx, hd]
    · apply prev_details_cons_other pf k x xs hx
      apply h x
      simp [List.find?_cons, hx]

/-- C3. New details section after a non-details sibling. When
`wrap_in_details` is applied to a block `cur` whose nearest previous sibling
that is not a command is missing or is not a section tagged details, a new
keyless details section is created and takes the position of `cur` (same
previous siblings, commands included, and same next siblings) with `cur` as
its only child. -/
theorem new_details_after_non_details (pf : Platform) (k : Codes)
    (hd : k.details < 2 ^ pf.unsigned_bits) (s : pass_state) (cur : cmark_node)
    (next : List cmark_node) (hcur : s.cur_next = cur :: next)
    (hprev : ∀ d, s.prev.find? (fun x => x.type != node_command) = some d →
      ¬ is_details pf k d) :
    wrap_in_details pf k s =
        { prev := s.prev,
          cur_next := cmark_node.mk node_section k.details none [cur] :: next,
          need_brief := s.need_brief,
          created := s.created ++ [cmark_node.mk node_section k.details none []] } ∧
      get_section_type pf (cmark_node.mk node_section k.details none [cur]) = some k.details ∧
      get_section_key (cmark_node.mk node_section k.details none [cur]) = some none := by
  refine ⟨?_, ?_, rfl⟩
  · simp only [wrap_in_details, hcur, prev_details_none_of_nearest pf k s.prev hprev,
      create_node_eq, mod_pointer pf _ hd]
    rfl
  · have := get_section_type_mk pf k.details none [cur] hd
    rwa [mod_pointer pf _ hd] at this

/-- Witness of C3 (scenario C): in `[paragraph "Brief."], [command X],
[paragraph "More text."]`, when the traversal reaches the second paragraph its
nearest previous non-command sibling is the brief section; a new details
section takes its place and the command stays between the two sections. -/
theorem new_details_after_non_details_witness :
    (wrap_in_details sample_platform sample_codes
        ⟨[cmark_node.mk node_command 3 (some []) [],
            cmark_node.mk node_section 10 none [sample_paragraph "Brief."]],
          [sample_paragraph "More text."], false, [cmark_node.mk node_section 10 none []]⟩ =
        { prev := [cmark_node.mk node_command 3 (some []) [],
            cmark_node.mk node_section 10 none [sample_paragraph "Brief."]],
          cur_next := [cmark_node.mk node_section sample_codes.details none
            [sample_paragraph "More text."]],
          need_brief := false,
          created := [cmark_node.mk node_section 10 none []] ++
            [cmark_node.mk node_section sample_codes.details none []] } ∧
      get_section_type sample_platform (cmark_node.mk node_section sample_codes.details none
        [sample_paragraph "More text."]) = some sample_codes.details ∧
      get_section_key (cmark_node.mk node_section sample_codes.details none
        [sample_paragraph "More text."]) = some none) ∧
    create_implicit_brief_details sample_platform sample_codes
        (sample_document [sample_paragraph "Brief.", cmark_node.mk node_command 3 (some []) [],
          sample_paragraph "More text."]) =
      some ⟨sample_document [cmark_node.mk node_section 10 none [sample_paragraph "Brief."],
          cmark_node.mk node_command 3 (some []) [],
          cmark_node.mk node_section 11 none [sample_paragraph "More text."]],
        [cmark_node.mk node_section 10 none [], cmark_node.mk node_section 11 none []], none⟩ :=
  ⟨new_details_after_non_details sample_platform sample_codes (by decide)
    ⟨[cmark_node.mk node_command 3 (some []) [],
        cmark_node.mk node_section 10 none [sample_paragraph "Brief."]],
      [sample_paragraph "More text."], false, [cmark_node.mk node_section 10 none []]⟩
    (sample_paragraph "More text.") [] rfl
    (by
      intro d hfind
      have hd : d = cmark_node.mk node_section 10 none [sample_paragraph "Brief."] := by
        simp [List.find?_cons, cmark_node.type] at hfind
        exact hfind.symm
      subst hd
      rintro ⟨-, h⟩
      revert h
      decide), rfl⟩

theorem settle_sections_commands (pf : Platform) (k : Codes) (l : List cmark_node)
    (h : ∀ x ∈ l, x.type = node_section ∨ x.type = node_command)
    (acc : List cmark_node × List cmark_node) :
    settle pf k acc l = (l.reverse ++ acc.1, acc.2) := by
  induction l generalizing acc with
  | nil => rfl
  | cons c cs ih =>
    have hc := h c (List.mem_cons_self _ _)
    have hstep : settle_step pf k acc c = (c :: acc.1, acc.2) := by
      simp [settle_step, hc]
    rw [settle_cons, hstep, ih (fun x hx => h x (List.mem_cons_of_mem _ hx))]
    simp

theorem settle_first_not_paragraph (pf : Platform) (k : Codes) (c : cmark_node)
    (h : c.type ≠ paragraph) : settle_first pf k c = settle_step pf k ([], []) c := by
  simp [settle_first, h]

/-- C5. Structuring idempotence on already-structured input. When every
top-level child of the root is a section or a command node, the pass returns
the root unchanged (same nodes, same order, same children) and creates no
node. -/
theorem structured_input_unchanged (pf : Platform) (k : Codes) (root : cmark_node)
    (h : ∀ n ∈ root.children, n.type = node_section ∨ n.type = node_command) :
    create_implicit_brief_details pf k root = some ⟨root, [], none⟩ := by
  rw [pass_eq]
  have hall : settle_all pf k root.children = (root.children.reverse, []) := by
    cases hch : root.children with
    | nil => rfl
    | cons c rest =>
      rw [hch] at h
      have hc := h c (List.mem_cons_self _ _)
      have hnp : c.type ≠ paragraph := by
        rcases hc with hc | hc <;> rw [hc] <;> decide
      have hstep : settle_step pf k ([], []) c = ([c], []) := by
        simp [settle_step, hc]
      simp only [settle_all]
      rw [settle_first_not_paragraph pf k c hnp, hstep,
        settle_sections_commands pf k rest (fun x hx => h x (List.mem_cons_of_mem _ hx))]
      simp
  rw [hall]
  simp [cmark_node_eta]

/-- Witness of C5: a root whose children are an explicit brief section and a
details section is returned unchanged. -/
theorem structured_input_unchanged_witness :
    create_implicit_brief_details sample_platform sample_codes
        (sample_document [cmark_node.mk node_section 10 none [sample_paragraph "Brief."],
          cmark_node.mk node_section 11 none [cmark_node.mk list 0 none []]]) =
      some ⟨sample_document [cmark_node.mk node_section 10 none [sample_paragraph "Brief."],
          cmark_node.mk node_section 11 none [cmark_node.mk list 0 none []]], [], none⟩ :=
  structured_input_unchanged sample_platform sample_codes
    (sample_document [cmark_node.mk node_section 10 none [sample_paragraph "Brief."],
      cmark_node.mk node_section 11 none [cmark_node.mk list 0 none []]])
    (by simp [sample_document, cmark_node.children, cmark_node.type])

/-- Tracking rule: a property of a node against the sibling list that holds
once the node has been visited, and is kept by later iterations, holds at the
end for every node visited. -/
theorem settle_track (pf : Platform) (k : Codes) (cond : cmark_node → Prop)
    (Q : cmark_node → List cmark_node → Prop)
    (hself : ∀ acc n, cond n → Q n (settle_step pf k acc n).1)
    (hmono : ∀ acc m n, Q n acc.1 → Q n (settle_step pf k acc m).1)
    (l : List cmark_node) (acc : List cmark_node × List cmark_node) :
    (∀ n, Q n acc.1 → Q n (settle pf k acc l).1) ∧
      ∀ n ∈ l, cond n → Q n (settle pf k acc l).1 := by
  induction l generalizing acc with
  | nil => exact ⟨fun n h => h, fun n hn => absurd hn (List.not_mem_nil _)⟩
  | cons m l ih =>
    rw [settle_cons]
    obtain ⟨ih1, ih2⟩ := ih (settle_step pf k acc m)
    refine ⟨fun n h => ih1 n (hmono acc m n h), fun n hn hc => ?_⟩
    rcases List.mem_cons.mp hn with hn | hn
    · subst hn
      exact ih1 n (hself acc n hc)
    · exact ih2 n hn hc

theorem settle_all_track (pf : Platform) (k : Codes) (cond : cmark_node → Prop)
    (Q : cmark_node → List cmark_node → Prop)
    (hfirst : ∀ c, cond c → Q c (settle_first pf k c).1)
    (hself : ∀ acc n, cond n → Q n (settle_step pf k acc n).1)
    (hmono : ∀ acc m n, Q n acc.1 → Q n (settle_step pf k acc m).1)
    (l : List cmark_node) :
    ∀ n ∈ l, cond n → Q n (settle_all pf k l).1 := by
  cases l with
  | nil => exact fun n hn => absurd hn (List.not_mem_nil _)
  | cons c rest =>
    intro n hn hc
    obtain ⟨h1, h2⟩ := settle_track pf k cond Q hself hmono rest (settle_first pf k c)
    rcases List.mem_cons.mp hn with hn | hn
    · subst hn
      exact h1 n (hfirst n hc)
    · exact h2 n hn hc

theorem in_details_step_mono (pf : Platform) (k : Codes)
    (acc : List cmark_node × List cmark_node) (m n : cmark_node)
    (h : in_details pf k n acc.1) : in_details pf k n (settle_step pf k acc m).1 := by
  obtain ⟨d, hd, hdet, hmem⟩ := h
  obtain ⟨b, hb, hext, -⟩ := settle_step_image pf k acc m d hd
  exact ⟨b, hb, is_details_of_extends pf k hext hdet, hext.2.2.2.subset hmem⟩

theorem is_details_new (pf : Platform) (k : Codes) (hd : k.details < 2 ^ pf.unsigned_bits)
    (n : cmark_node) :
    is_details pf k (cmark_node_append_child (create_node pf node_section k.details none) n) :=
  ⟨rfl, get_section_type_mk pf k.details none [n] hd⟩

theorem in_details_step_self (pf : Platform) (k : Codes) (hd : k.details < 2 ^ pf.unsigned_bits)
    (acc : List cmark_node × List cmark_node) (n : cmark_node)
    (hn : ¬ (n.type = node_section ∨ n.type = node_command)) :
    in_details pf k n (settle_step pf k acc n).1 := by
  rcases settle_step_cases pf k acc n with ⟨h, -⟩ | ⟨-, -, h⟩ | ⟨-, cmds, d, before, -, -, hdet, h⟩
  · exact absurd h hn
  · rw [h]
    exact ⟨_, List.mem_cons_self _ _, is_details_new pf k hd n, by
      simp [cmark_node_append_child, cmark_node.children]⟩
  · rw [h]
    exact ⟨_, List.mem_append_right _ (List.mem_cons_self _ _),
      is_details_of_extends pf k (extends_node_append d n) hdet, by
        simp [cmark_node_append_child, cmark_node.children]⟩

theorem placed_step_mono (pf : Platform) (k : Codes)
    (acc : List cmark_node × List cmark_node) (m n : cmark_node)
    (hn : n.type ≠ node_section) (h : placed n acc.1) :
    placed n (settle_step pf k acc m).1 := by
  rcases h with h | ⟨s, hs, hsec, hmem⟩
  · obtain ⟨b, hb, -, hsame⟩ := settle_step_image pf k acc m n h
    have : b = n := hsame (fun hdet => hn hdet.1)
    subst this
    exact Or.inl hb
  · obtain ⟨b, hb, hext, -⟩ := settle_step_image pf k acc m s hs
    exact Or.inr ⟨b, hb, hext.1.trans hsec, hext.2.2.2.subset hmem⟩

theorem placed_step_self (pf : Platform) (k : Codes)
    (acc : List cmark_node × List cmark_node) (n : cmark_node) :
    placed n (settle_step pf k acc n).1 := by
  rcases settle_step_cases pf k acc n with ⟨-, h⟩ | ⟨-, -, h⟩ | ⟨-, cmds, d, before, -, -, hdet, h⟩
  · rw [h]; exact Or.inl (List.mem_cons_self _ _)
  · rw [h]
    exact Or.inr ⟨_, List.mem_cons_self _ _, rfl, by
      simp [cmark_node_append_child, cmark_node.children]⟩
  · rw [h]
    exact Or.inr ⟨_, List.mem_append_right _ (List.mem_cons_self _ _), hdet.1, by
      simp [cmark_node_append_child, cmark_node.children]⟩

theorem placed_first (pf : Platform) (k : Codes) (c : cmark_node) :
    placed c (settle_first pf k c).1 := by
  unfold settle_first
  split
  · split
    · exact Or.inr ⟨_, List.mem_cons_self _ _, rfl, by
        simp [cmark_node_append_child, cmark_node.children]⟩
    · exact Or.inr ⟨_, List.mem_cons_self _ _, rfl, by
        simp [cmark_node_append_child, cmark_node.children]⟩
  · exact placed_step_self pf k ([], []) c

/-- What the first iteration creates: a brief section exactly when the first
child is a paragraph without breaks, otherwise at most a details section. -/
theorem settle_first_created (pf : Platform) (k : Codes) (c : cmark_node) :
    (c.type = paragraph ∧ paragraph_can_be_brief c = true ∧
        settle_first pf k c =
          ([cmark_node_append_child (create_node pf node_section k.brief none) c],
            [create_node pf node_section k.brief none])) ∨
      (¬ (c.type = paragraph ∧ paragraph_can_be_brief c = true) ∧
        ∀ x ∈ (settle_first pf k c).2, x = create_node pf node_section k.details none) := by
  by_cases hp : c.type = paragraph
  · by_cases hb : paragraph_can_be_brief c = true
    · left; exact ⟨hp, hb, by simp [settle_first, hp, hb]⟩
    · right
      refine ⟨fun h => hb h.2, ?_⟩
      simp [settle_first, hp, hb]
  · right
    refine ⟨fun h => hp h.1, ?_⟩
    rw [settle_first_not_paragraph pf k c hp]
    rcases settle_step_cases pf k ([], []) c with ⟨-, h⟩ | ⟨-, -, h⟩ | ⟨-, cmds, d, before, -, -, -, h⟩
    · rw [h]; simp
    · rw [h]; simp
    · rw [h]; simp

theorem get_section_type_created_details (pf : Platform) (k : Codes)
    (hd : k.details < 2 ^ pf.unsigned_bits) :
    get_section_type pf (create_node pf node_section k.details none) = some k.details :=
  get_section_type_mk pf k.details none [] hd

theorem settle_all_brief_head (pf : Platform) (k : Codes)
    (hb : k.brief < 2 ^ pf.unsigned_bits) (hne : k.brief ≠ k.details) (p : cmark_node)
    (rest : List cmark_node) (hp : p.type = paragraph)
    (hbrief : paragraph_can_be_brief p = true) :
    ∃ out, (settle_all pf k (p :: rest)).1.reverse =
      cmark_node_append_child (create_node pf node_section k.brief none) p :: out := by
  have hfirst : settle_first pf k p =
      ([cmark_node.mk node_section (k.brief % 2 ^ pf.pointer_bits) none [p]],
        [create_node pf node_section k.brief none]) := by
    simp [settle_first, hp, hbrief, append_child_create]
  obtain ⟨b, hlast, hkeep⟩ := settle_last pf k rest (settle_first pf k p)
    (cmark_node.mk node_section (k.brief % 2 ^ pf.pointer_bits) none [p]) (by rw [hfirst]; rfl)
  have hbeq := hkeep.2 (not_is_details_brief pf k hb hne [p])
  subst hbeq
  rw [← List.head?_reverse] at hlast
  simp only [settle_all]
  cases hout : (settle pf k (settle_first pf k p) rest).1.reverse with
  | nil => rw [hout] at hlast; cases hlast
  | cons x out =>
    rw [hout] at hlast
    cases hlast
    exact ⟨out, rfl⟩

theorem not_brief_created_details (pf : Platform) (k : Codes)
    (hd : k.details < 2 ^ pf.unsigned_bits) (hne : k.brief ≠ k.details) :
    get_section_type pf (create_node pf node_section k.details none) ≠ some k.brief := by
  rw [get_section_type_created_details pf k hd]
  intro h
  exact hne (Option.some.inj h).symm

/-- C4. One-shot brief latch. The pass returns, and among the nodes it creates
at most one is tagged brief; a created brief node is the one wrapping the
first top-level child, a paragraph without breaks, and stands first in the
result. If the first top-level child is not a paragraph, no created node is
tagged brief and every later top-level paragraph ends up as a child of a
details section. -/
theorem one_shot_brief_latch (pf : Platform) (k : Codes)
    (hb : k.brief < 2 ^ pf.unsigned_bits) (hd : k.details < 2 ^ pf.unsigned_bits)
    (hne : k.brief ≠ k.details) (root : cmark_node) :
    ∃ r, create_implicit_brief_details pf k root = some r ∧
      (r.created.filter (fun c => get_section_type pf c == some k.brief)).length ≤ 1 ∧
      (∀ c ∈ r.created, get_section_type pf c = some k.brief →
        ∃ p rest out, root.children = p :: rest ∧ p.type = paragraph ∧
          paragraph_can_be_brief p = true ∧
          c = create_node pf node_section k.brief none ∧
          r.root.children = cmark_node_append_child c p :: out) ∧
      (∀ c rest, root.children = c :: rest → c.type ≠ paragraph →
        (∀ x ∈ r.created, get_section_type pf x ≠ some k.brief) ∧
        ∀ q ∈ rest, q.type = paragraph → in_details pf k q r.root.children) := by
  obtain ⟨r, hr⟩ : ∃ r, create_implicit_brief_details pf k root = some r := ⟨_, pass_eq pf k root⟩
  obtain ⟨hch, hcr, -⟩ := root_children_of_pass pf k root r hr
  refine ⟨r, hr, ?_⟩
  cases hroot : root.children with
  | nil =>
    rw [hroot] at hcr
    have : r.created = [] := hcr
    rw [this]
    refine ⟨by simp, fun c hc => absurd hc (List.not_mem_nil _), fun c rest h => by cases h⟩
  | cons c rest =>
    rw [hroot] at hch hcr
    obtain ⟨newc, hnewc, hnew⟩ := settle_created pf k rest (settle_first pf k c)
    have hcreated : r.created = (settle_first pf k c).2 ++ newc := by
      rw [hcr]; exact hnewc
    have hnewnot : ∀ x ∈ newc, get_section_type pf x ≠ some k.brief := by
      intro x hx
      rw [hnew x hx]
      exact not_brief_created_details pf k hd hne
    have htrack := (settle_track pf k
      (fun n => ¬ (n.type = node_section ∨ n.type = node_command))
      (in_details pf k) (in_details_step_self pf k hd)
      (in_details_step_mono pf k) rest (settle_first pf k c)).2
    rcases settle_first_created pf k c with ⟨hp, hbrief, hfirst⟩ | ⟨hnot, hfirst⟩
    · -- the first child becomes the implicit brief
      rw [hfirst] at hcreated
      refine ⟨?_, ?_, ?_⟩
      · rw [hcreated]
        have hnil : newc.filter (fun c => get_section_type pf c == some k.brief) = [] := by
          rw [List.filter_eq_nil_iff]
          intro x hx
          simpa using hnewnot x hx
        simp only [List.singleton_append, List.filter_cons]
        split <;> simp [hnil]
      · intro x hx hxb
        rw [hcreated] at hx
        rcases List.mem_append.mp hx with hx | hx
        · have hxe : x = create_node pf node_section k.brief none := by simpa using hx
          obtain ⟨out, hout⟩ := settle_all_brief_head pf k hb hne c rest hp hbrief
          refine ⟨c, rest, out, rfl, hp, hbrief, hxe, ?_⟩
          rw [hch, hxe]; exact hout
        · exact absurd hxb (hnewnot x hx)
      · intro c' rest' h hnp
        cases h
        exact absurd hp hnp
    · -- no brief is created
      have hall : ∀ x ∈ r.created, get_section_type pf x ≠ some k.brief := by
        intro x hx
        rw [hcreated] at hx
        rcases List.mem_append.mp hx with hx | hx
        · rw [hfirst x hx]
          exact not_brief_created_details pf k hd hne
        · exact hnewnot x hx
      refine ⟨?_, ?_, ?_⟩
      · have hnil : r.created.filter (fun c => get_section_type pf c == some k.brief) = [] := by
          rw [List.filter_eq_nil_iff]
          intro x hx
          simpa using hall x hx
        simp [hnil]
      · intro x hx hxb
        exact absurd hxb (hall x hx)
      · intro c' rest' h hnp
        cases h
        refine ⟨hall, fun q hq hqp => ?_⟩
        have hplain : ¬ (q.type = node_section ∨ q.type = node_command) := by
          rw [hqp]; decide
        obtain ⟨d, hdm, hdet, hmem⟩ := htrack q hq hplain
        refine ⟨d, ?_, hdet, hmem⟩
        rw [hch]
        exact List.mem_reverse.mpr hdm

/-- Witness of C4: in `[command, paragraph "x"]` the first child is not a
paragraph; no brief is created and the paragraph goes under a details
section. -/
theorem one_shot_brief_latch_witness :
    create_implicit_brief_details sample_platform sample_codes
        (sample_document [cmark_node.mk node_command 3 (some []) [], sample_paragraph "x"]) =
      some ⟨sample_document [cmark_node.mk node_command 3 (some []) [],
          cmark_node.mk node_section 11 none [sample_paragraph "x"]],
        [cmark_node.mk node_section 11 none []], none⟩ ∧
    ∃ r, create_implicit_brief_details sample_platform sample_codes
        (sample_document [cmark_node.mk node_command 3 (some []) [], sample_paragraph "x"]) =
          some r ∧
      (r.created.filter
        (fun c => get_section_type sample_platform c == some sample_codes.brief)).length ≤ 1 ∧
      (∀ c ∈ r.created, get_section_type sample_platform c = some sample_codes.brief →
        ∃ p rest out,
          (sample_document [cmark_node.mk node_command 3 (some []) [],
            sample_paragraph "x"]).children = p :: rest ∧ p.type = paragraph ∧
          paragraph_can_be_brief p = true ∧
          c = create_node sample_platform node_section sample_codes.brief none ∧
          r.root.children = cmark_node_append_child c p :: out) ∧
      (∀ c rest,
        (sample_document [cmark_node.mk node_command 3 (some []) [],
          sample_paragraph "x"]).children = c :: rest → c.type ≠ paragraph →
        (∀ x ∈ r.created, get_section_type sample_platform x ≠ some sample_codes.brief) ∧
        ∀ q ∈ rest, q.type = paragraph →
          in_details sample_platform sample_codes q r.root.children) :=
  ⟨rfl, one_shot_brief_latch sample_platform sample_codes (by decide) (by decide) (by decide)
    (sample_document [cmark_node.mk node_command 3 (some []) [], sample_paragraph "x"])⟩

theorem nodes_list_append (a b : List cmark_node) :
    nodes_list (a ++ b) = nodes_list a ++ nodes_list b := by
  induction a with
  | nil => simp [nodes_list]
  | cons x xs ih => simp [nodes_list, ih]

theorem nodes_list_cons (n : cmark_node) (l : List cmark_node) :
    nodes_list (n :: l) = n.nodes ++ nodes_list l := by
  simp [nodes_list]

theorem nodes_append_child (d n : cmark_node) :
    (cmark_node_append_child d n).nodes = d.nodes ++ n.nodes := by
  cases d with
  | mk t u c cs =>
    simp [cmark_node_append_child, cmark_node.nodes, cmark_node.type, cmark_node.user_data,
      cmark_node.content, cmark_node.children, nodes_list_append, nodes_list]

theorem nodes_list_perm {l1 l2 : List cmark_node} (h : List.Perm l1 l2) :
    List.Perm (nodes_list l1) (nodes_list l2) := by
  induction h with
  | nil => exact List.Perm.refl _
  | cons x _ ih =>
    rw [nodes_list_cons, nodes_list_cons]
    exact List.Perm.append_left _ ih
  | swap x y l =>
    simp only [nodes_list_cons, ← List.append_assoc]
    exact List.Perm.append_right _ List.perm_append_comm
  | trans _ _ ih1 ih2 => exact ih1.trans ih2

/-- One iteration keeps every node met so far and the node visited, and adds
only the nodes it creates. -/
theorem settle_step_perm (pf : Platform) (k : Codes) (acc : List cmark_node × List cmark_node)
    (n : cmark_node) :
    ∃ newc, (settle_step pf k acc n).2 = acc.2 ++ newc ∧
      List.Perm (nodes_list (settle_step pf k acc n).1)
        (nodes_list acc.1 ++ n.nodes ++ nodes_list newc) := by
  rcases settle_step_cases pf k acc n with ⟨-, h⟩ | ⟨-, -, h⟩ | ⟨-, cmds, d, before, hp, -, -, h⟩
  · refine ⟨[], by rw [h]; simp, ?_⟩
    rw [h]
    simp only [nodes_list_cons, nodes_list, List.append_nil]
    exact List.perm_append_comm
  · refine ⟨[create_node pf node_section k.details none], by rw [h], ?_⟩
    rw [h]
    simp only [nodes_list_cons, nodes_append_child, nodes_list, List.append_nil]
    rw [List.perm_iff_count]
    intro a
    simp only [List.count_append]
    omega
  · refine ⟨[], by rw [h]; simp, ?_⟩
    rw [h, hp]
    simp only [nodes_list_append, nodes_list_cons, nodes_append_child, nodes_list,
      List.append_nil]
    rw [List.perm_iff_count]
    intro a
    simp only [List.count_append]
    omega

theorem settle_perm (pf : Platform) (k : Codes) (l : List cmark_node)
    (acc : List cmark_node × List cmark_node) :
    ∃ newc, (settle pf k acc l).2 = acc.2 ++ newc ∧
      List.Perm (nodes_list (settle pf k acc l).1)
        (nodes_list acc.1 ++ nodes_list l ++ nodes_list newc) := by
  induction l generalizing acc with
  | nil => exact ⟨[], by simp [settle_nil], by simp [settle_nil, nodes_list]⟩
  | cons n l ih =>
    obtain ⟨c1, h1, p1⟩ := settle_step_perm pf k acc n
    obtain ⟨c2, h2, p2⟩ := ih (settle_step pf k acc n)
    refine ⟨c1 ++ c2, by rw [settle_cons, h2, h1, List.append_assoc], ?_⟩
    rw [settle_cons]
    refine p2.trans ?_
    rw [List.perm_iff_count] at p1 ⊢
    intro a
    have := p1 a
    simp only [List.count_append, nodes_list_cons, nodes_list_append] at this ⊢
    omega

theorem settle_first_perm (pf : Platform) (k : Codes) (c : cmark_node) :
    List.Perm (nodes_list (settle_first pf k c).1)
      (c.nodes ++ nodes_list (settle_first pf k c).2) := by
  unfold settle_first
  split
  · split
    · simp only [nodes_list_cons, nodes_append_child, nodes_list, List.append_nil]
      exact List.perm_append_comm
    · simp only [nodes_list_cons, nodes_append_child, nodes_list, List.append_nil]
      exact List.perm_append_comm
  · obtain ⟨newc, h1, p1⟩ := settle_step_perm pf k ([], []) c
    rw [h1]
    simpa [nodes_list] using p1

theorem settle_all_perm (pf : Platform) (k : Codes) (l : List cmark_node) :
    List.Perm (nodes_list (settle_all pf k l).1.reverse)
      (nodes_list l ++ nodes_list (settle_all pf k l).2) := by
  refine (nodes_list_perm (List.reverse_perm _)).trans ?_
  cases l with
  | nil => simp [settle_all, nodes_list]
  | cons c rest =>
    simp only [settle_all]
    obtain ⟨newc, h1, p1⟩ := settle_perm pf k rest (settle_first pf k c)
    have p0 := settle_first_perm pf k c
    rw [h1]
    refine p1.trans ?_
    rw [List.perm_iff_count] at p0 ⊢
    intro a
    have := p0 a
    simp only [List.count_append, nodes_list_cons, nodes_list_append] at this ⊢
    omega

theorem settle_all_created (pf : Platform) (k : Codes) (l : List cmark_node) :
    ∀ c ∈ (settle_all pf k l).2,
      c = create_node pf node_section k.brief none ∨
        c = create_node pf node_section k.details none := by
  cases l with
  | nil => intro c hc; simp [settle_all] at hc
  | cons c rest =>
    intro x hx
    simp only [settle_all] at hx
    obtain ⟨newc, h1, h2⟩ := settle_created pf k rest (settle_first pf k c)
    rw [h1] at hx
    rcases List.mem_append.mp hx with hx | hx
    · rcases settle_first_created pf k c with ⟨-, -, hf⟩ | ⟨-, hf⟩
      · rw [hf] at hx
        left; simpa using hx
      · right; exact hf x hx
    · right; exact h2 x hx

/-- C6. The structuring pass never deletes a node. The pass returns; the
nodes of the resulting top level are, counted with multiplicity, the nodes of
the input top level together with the created nodes; every created node is a
keyless childless section made with the brief or the details code; every
original top-level node that is not a section is, with its subtree unchanged,
a top-level child or a child of a section of the result; and every original
top-level section is still there with the same kind, code and key and with
its original children as its leading children, in the same order. The root
keeps its kind, user data and content. -/
theorem pass_never_deletes (pf : Platform) (k : Codes) (root : cmark_node) :
    ∃ r, create_implicit_brief_details pf k root = some r ∧
      List.Perm (nodes_list r.root.children)
        (nodes_list root.children ++ nodes_list r.created) ∧
      (∀ c ∈ r.created, c = create_node pf node_section k.brief none ∨
        c = create_node pf node_section k.details none) ∧
      (∀ n ∈ root.children, n.type ≠ node_section → placed n r.root.children) ∧
      (∀ s ∈ root.children, s.type = node_section →
        ∃ t ∈ r.root.children, extends_node s t) ∧
      r.root.type = root.type ∧ r.root.user_data = root.user_data ∧
      r.root.content = root.content := by
  obtain ⟨r, hr⟩ : ∃ r, create_implicit_brief_details pf k root = some r := ⟨_, pass_eq pf k root⟩
  obtain ⟨hch, hcr, -, h1, h2, h3⟩ := root_children_of_pass pf k root r hr
  refine ⟨r, hr, ?_, ?_, ?_, ?_, h1, h2, h3⟩
  · rw [hch, hcr]
    exact settle_all_perm pf k root.children
  · rw [hcr]
    exact settle_all_created pf k root.children
  · intro n hn hns
    have := settle_all_track pf k (fun _ => True)
      (fun n l => n.type ≠ node_section → placed n l)
      (fun c _ _ => placed_first pf k c)
      (fun acc n _ _ => placed_step_self pf k acc n)
      (fun acc m n h hn => placed_step_mono pf k acc m n hn (h hn))
      root.children n hn trivial hns
    rw [hch]
    rcases this with h | ⟨s, hs, hsec, hmem⟩
    · exact Or.inl (List.mem_reverse.mpr h)
    · exact Or.inr ⟨s, List.mem_reverse.mpr hs, hsec, hmem⟩
  · intro s hs hsec
    have := settle_all_track pf k (fun n => n.type = node_section)
      (fun n l => ∃ t ∈ l, extends_node n t)
      (fun c hc => by
        have hnp : c.type ≠ paragraph := by rw [hc]; decide
        rw [settle_first_not_paragraph pf k c hnp]
        exact ⟨c, by simp [settle_step, hc], extends_node_refl c⟩)
      (fun acc n hn => ⟨n, by simp [settle_step, hn], extends_node_refl n⟩)
      (fun acc m n h => by
        obtain ⟨t, ht, hext⟩ := h
        obtain ⟨b, hb, hkeep⟩ := settle_step_image pf k acc m t ht
        exact ⟨b, hb, extends_node_trans hext hkeep.1⟩)
      root.children s hs hsec
    obtain ⟨t, ht, hext⟩ := this
    exact ⟨t, by rw [hch]; exact List.mem_reverse.mpr ht, hext⟩

theorem is_whitespace_ne_NUL (c : Char) (h : is_whitespace c = true) : c ≠ NUL := by
  intro hc
  subst hc
  revert h
  decide

theorem skip_whitespace_eq (l : List Char) :
    skip_whitespace l = l.dropWhile is_whitespace := by
  induction l with
  | nil => rfl
  | cons c rest ih =>
    by_cases hw : is_whitespace c = true
    · have hn : c ≠ NUL := is_whitespace_ne_NUL c hw
      simp [skip_whitespace, hw, hn, ih, List.dropWhile_cons]
    · simp [skip_whitespace, hw, List.dropWhile_cons]

theorem parse_word_loop_eq (l word : List Char) :
    parse_word_loop word l = (word ++ l.takeWhile is_word_char, l.dropWhile is_word_char) := by
  induction l generalizing word with
  | nil => simp [parse_word_loop]
  | cons c rest ih =>
    by_cases hw : is_word_char c = true
    · have hw' : (c != NUL && !is_whitespace c) = true := hw
      simp only [parse_word_loop, hw', if_true, ih, List.takeWhile_cons, hw, List.dropWhile_cons]
      simp
    · have hw' : ¬ (c != NUL && !is_whitespace c) = true := hw
      simp only [parse_word_loop, hw', if_false, List.takeWhile_cons, hw, List.dropWhile_cons]
      simp

theorem parse_word_eq (l : List Char) :
    parse_word l =
      ((l.dropWhile is_whitespace).takeWhile is_word_char,
        (l.dropWhile is_whitespace).dropWhile is_word_char) := by
  simp [parse_word, parse_word_loop_eq, skip_whitespace_eq]

theorem head_dropWhile_not {p : Char → Bool} (l : List Char) :
    ∀ ch, (l.dropWhile p).head? = some ch → p ch = false := by
  induction l with
  | nil => intro ch h; simp at h
  | cons c rest ih =>
    intro ch h
    by_cases hp : p c = true
    · rw [List.dropWhile_cons, if_pos hp] at h
      exact ih ch h
    · rw [List.dropWhile_cons, if_neg hp] at h
      simp only [List.head?_cons, Option.some.injEq] at h
      subst h
      simpa using hp

/-- Function `skip_whitespace` splits its input into the whitespace skipped and the
rest, which does not begin with whitespace. -/
theorem skip_whitespace_spec (l : List Char) :
    ∃ ws, l = ws ++ skip_whitespace l ∧ (∀ ch ∈ ws, is_whitespace ch = true) ∧
      ∀ ch, (skip_whitespace l).head? = some ch → is_whitespace ch = false := by
  rw [skip_whitespace_eq]
  refine ⟨l.takeWhile is_whitespace, (List.takeWhile_append_dropWhile _ l).symm, ?_, ?_⟩
  · intro ch hch
    exact List.mem_takeWhile_imp hch
  · exact head_dropWhile_not l

/-- Function `parse_word` splits its input into the whitespace skipped, the word (made
of characters that are neither whitespace nor the terminator) and the rest,
which does not begin with such a character. -/
theorem parse_word_spec (l : List Char) :
    ∃ ws, l = ws ++ (parse_word l).1 ++ (parse_word l).2 ∧
      (∀ ch ∈ ws, is_whitespace ch = true) ∧
      (∀ ch ∈ (parse_word l).1, is_word_char ch = true) ∧
      ∀ ch, (parse_word l).2.head? = some ch → is_word_char ch = false := by
  rw [parse_word_eq]
  refine ⟨l.takeWhile is_whitespace, ?_, ?_, ?_, ?_⟩
  · simp only [List.append_assoc, List.takeWhile_append_dropWhile]
  · intro ch hch
    exact List.mem_takeWhile_imp hch
  · intro ch hch
    exact List.mem_takeWhile_imp hch
  · exact head_dropWhile_not _

theorem c_str_of_word (w : List Char) (h : ∀ ch ∈ w, is_word_char ch = true) : c_str w = w := by
  unfold c_str
  rw [List.takeWhile_eq_self_iff]
  intro ch hch
  have := h ch hch
  simp only [is_word_char, Bool.and_eq_true] at this
  exact this.1

theorem c_str_of_no_NUL (w : List Char) (h : NUL ∉ w) : c_str w = w := by
  unfold c_str
  rw [List.takeWhile_eq_self_iff]
  intro ch hch
  simp only [bne_iff_ne, ne_eq]
  intro hc
  subst hc
  exact h hch

theorem dropWhile_of_all {p : Char → Bool} (ws l : List Char) (h : ∀ ch ∈ ws, p ch = true) :
    (ws ++ l).dropWhile p = l.dropWhile p := by
  induction ws with
  | nil => rfl
  | cons c cs ih =>
    have hc := h c (List.mem_cons_self _ _)
    rw [List.cons_append, List.dropWhile_cons, if_pos hc,
      ih (fun x hx => h x (List.mem_cons_of_mem _ hx))]

theorem takeWhile_of_all {p : Char → Bool} (w l : List Char) (h : ∀ ch ∈ w, p ch = true) :
    (w ++ l).takeWhile p = w ++ l.takeWhile p := by
  induction w with
  | nil => rfl
  | cons c cs ih =>
    have hc := h c (List.mem_cons_self _ _)
    rw [List.cons_append, List.takeWhile_cons, if_pos hc,
      ih (fun x hx => h x (List.mem_cons_of_mem _ hx))]
    rfl

/-- Function `parse_word` on whitespace, then a word, then a rest that does not
continue the word: the word is returned and the cursor is at the rest. -/
theorem parse_word_of_split (ws w rest : List Char) (hws : ∀ ch ∈ ws, is_whitespace ch = true)
    (hw : ∀ ch ∈ w, is_word_char ch = true) (hne : w ≠ [])
    (hrest : ∀ ch, rest.head? = some ch → is_word_char ch = false) :
    parse_word (ws ++ w ++ rest) = (w, rest) := by
  have hwnot : (w ++ rest).dropWhile is_whitespace = w ++ rest := by
    cases w with
    | nil => exact absurd rfl hne
    | cons c cs =>
      have hc := hw c (List.mem_cons_self _ _)
      simp only [is_word_char, Bool.and_eq_true, Bool.not_eq_true'] at hc
      rw [List.cons_append, List.dropWhile_cons, if_neg (by simp [hc.2])]
  have hrest' : rest.takeWhile is_word_char = [] ∧ rest.dropWhile is_word_char = rest := by
    cases rest with
    | nil => exact ⟨rfl, rfl⟩
    | cons c cs =>
      have hc := hrest c rfl
      simp [List.takeWhile_cons, List.dropWhile_cons, hc]
  rw [parse_word_eq, List.append_assoc, dropWhile_of_all ws _ hws, hwnot,
    takeWhile_of_all w _ hw, dropWhile_of_all w _ hw, hrest'.1, hrest'.2]
  simp

/-- C7, as stated, fails. With trigger `@` and `param` a section code, the line
`@param - name rest of text` yields a section node without key: the `-` is
itself parsed as the candidate word and is not followed by a `-`. -/
theorem section_key_scenario_counterexample :
    sample_config.command_character = '@' ∧
    sample_codes.is_section (sample_config.try_lookup "param".toList) = true ∧
    try_open_block sample_platform sample_codes sample_config ⟨document, []⟩
        "@param - name rest of text".toList 26 =
      some ⟨cmark_node.mk node_section 12 none [], 6⟩ ∧
    get_section_key (cmark_node.mk node_section 12 none []) = some none ∧
    get_section_key (cmark_node.mk node_section 12 none []) ≠ some (some "name".toList) := by
  refine ⟨rfl, rfl, rfl, rfl, ?_⟩
  decide

/-- C7, amended. With trigger `@` and `param` resolved to a section code,
recognizing `@param name - rest of text` under the document root yields a
section node whose key is present and equal to `name`, the line cursor being
advanced by 14 characters (to `rest of text`); the line
`@param - name rest of text` yields a section node without key, the line
cursor being advanced by 6 characters (past `@param`). -/
theorem section_key_scenario (pf : Platform) (k : Codes) (c : config) (len : Nat)
    (hcc : c.command_character = '@')
    (hsec : k.is_section (c.try_lookup "param".toList) = true) :
    try_open_block pf k c ⟨document, []⟩ "@param name - rest of text".toList len =
        some ⟨cmark_node.mk node_section
          (c.try_lookup "param".toList % 2 ^ pf.pointer_bits) (some "name".toList) [], 14⟩ ∧
      get_section_key (cmark_node.mk node_section
          (c.try_lookup "param".toList % 2 ^ pf.pointer_bits) (some "name".toList) []) =
        some (some "name".toList) ∧
      try_open_block pf k c ⟨document, []⟩ "@param - name rest of text".toList len =
        some ⟨cmark_node.mk node_section
          (c.try_lookup "param".toList % 2 ^ pf.pointer_bits) none [], 6⟩ ∧
      get_section_key (cmark_node.mk node_section
          (c.try_lookup "param".toList % 2 ^ pf.pointer_bits) none []) = some none := by
  obtain ⟨cc, lk⟩ := c
  simp only at hcc hsec
  subst hcc
  have h1 : try_parse_command k ⟨'@', lk⟩ "@param name - rest of text".toList =
      (lk "param".toList, " name - rest of text".toList) := by rfl
  have h2 : try_parse_command k ⟨'@', lk⟩ "@param - name rest of text".toList =
      (lk "param".toList, " - name rest of text".toList) := by rfl
  have k1 : parse_section_key " name - rest of text".toList =
      (some "name".toList, "rest of text".toList) := by rfl
  have k2 : parse_section_key " - name rest of text".toList =
      (none, " - name rest of text".toList) := by rfl
  have ha : accept_commands ⟨document, []⟩ = true := by rfl
  refine ⟨?_, rfl, ?_, rfl⟩
  · simp only [try_open_block, ha, h1, hsec, k1]
    rfl
  · simp only [try_open_block, ha, h2, hsec, k2]
    rfl

/-- Witness of the amended C7, on the sample configuration. -/
theorem section_key_scenario_witness :
    try_open_block sample_platform sample_codes sample_config ⟨document, []⟩
        "@param name - rest of text".toList 26 =
        some ⟨cmark_node.mk node_section
          (sample_config.try_lookup "param".toList % 2 ^ sample_platform.pointer_bits)
          (some "name".toList) [], 14⟩ ∧
      get_section_key (cmark_node.mk node_section
          (sample_config.try_lookup "param".toList % 2 ^ sample_platform.pointer_bits)
          (some "name".toList) []) =
        some (some "name".toList) ∧
      try_open_block sample_platform sample_codes sample_config ⟨document, []⟩
        "@param - name rest of text".toList 26 =
        some ⟨cmark_node.mk node_section
          (sample_config.try_lookup "param".toList % 2 ^ sample_platform.pointer_bits)
          none [], 6⟩ ∧
      get_section_key (cmark_node.mk node_section
          (sample_config.try_lookup "param".toList % 2 ^ sample_platform.pointer_bits)
          none []) = some none :=
  section_key_scenario sample_platform sample_codes sample_config 26 rfl rfl

/-- C10. A line whose first character is not the trigger character (the empty
line included, its first character being the terminator) is not a directive:
`try_parse_command` reports the invalid code and leaves its cursor at the
start of the line, whatever the word lookup is; and, the invalid code being
neither a section nor a command code, `try_open_block` returns null: no node
is created and the line cursor is not advanced. -/
theorem non_trigger_line_invalid (pf : Platform) (k : Codes) (c : config)
    (parent : container) (line : List Char) (len : Nat)
    (hfirst : deref line ≠ c.command_character)
    (hs : k.is_section k.invalid = false) (hc : k.is_command k.invalid = false) :
    try_parse_command k c line = (k.invalid, line) ∧
      (∀ lookup : List Char → Nat,
        try_parse_command k ⟨c.command_character, lookup⟩ line = (k.invalid, line)) ∧
      try_open_block pf k c parent line len = none := by
  have h1 : ∀ lookup : List Char → Nat,
      try_parse_command k ⟨c.command_character, lookup⟩ line = (k.invalid, line) := by
    intro lookup
    simp [try_parse_command, hfirst]
  have h2 : try_parse_command k c line = (k.invalid, line) := h1 c.try_lookup
  refine ⟨h2, h1, ?_⟩
  unfold try_open_block
  split
  · rfl
  · simp [h2, hs, hc]

/-- Witness of C10: a line of plain text, and the empty line, under the
sample configuration. -/
theorem non_trigger_line_invalid_witness :
    (try_parse_command sample_codes sample_config "plain text".toList =
        (sample_codes.invalid, "plain text".toList) ∧
      (∀ lookup : List Char → Nat,
        try_parse_command sample_codes ⟨sample_config.command_character, lookup⟩
          "plain text".toList = (sample_codes.invalid, "plain text".toList)) ∧
      try_open_block sample_platform sample_codes sample_config ⟨document, []⟩
        "plain text".toList 10 = none) ∧
    try_open_block sample_platform sample_codes sample_config ⟨document, []⟩ [] 0 = none :=
  ⟨non_trigger_line_invalid sample_platform sample_codes sample_config ⟨document, []⟩
    "plain text".toList 10 (by decide) rfl rfl, rfl⟩

/-- C8. Command recognition. For a line made of the trigger character, a
word (after optional whitespace) that the configuration resolves to a command
code, and a remainder free of the terminator that is empty or begins with
whitespace, under a parent that accepts directives: `try_open_block` creates
a command node tagged with that code, advances the line cursor by the full
line length, and the argument is the remainder with its leading whitespace
removed and nothing else changed. -/
theorem command_recognition (pf : Platform) (k : Codes) (c : config) (parent : container)
    (ws word rem : List Char) (len : Nat)
    (hacc : accept_commands parent = true)
    (hlen : len = (c.command_character :: (ws ++ word ++ rem)).length)
    (hws : ∀ ch ∈ ws, is_whitespace ch = true)
    (hword : ∀ ch ∈ word, is_word_char ch = true) (hne : word ≠ [])
    (hrem : ∀ ch, rem.head? = some ch → is_whitespace ch = true) (hnul : NUL ∉ rem)
    (hcmd : k.is_command (c.try_lookup word) = true)
    (hnsec : k.is_section (c.try_lookup word) = false)
    (hcode : c.try_lookup word < 2 ^ pf.unsigned_bits) :
    ∃ ob, try_open_block pf k c parent (c.command_character :: (ws ++ word ++ rem)) len =
        some ob ∧
      ob.node = cmark_node.mk node_command (c.try_lookup word)
        (some (rem.dropWhile is_whitespace)) [] ∧
      get_command_type pf ob.node = some (c.try_lookup word) ∧
      get_command_arguments ob.node = some (some (rem.dropWhile is_whitespace)) ∧
      ob.advance = (c.command_character :: (ws ++ word ++ rem)).length := by
  have hrest : ∀ ch, rem.head? = some ch → is_word_char ch = false := by
    intro ch h
    simp [is_word_char, hrem ch h]
  have hpw := parse_word_of_split ws word rem hws hword hne hrest
  have hparse : try_parse_command k c (c.command_character :: (ws ++ word ++ rem)) =
      (c.try_lookup word, rem) := by
    unfold try_parse_command
    rw [if_pos (by rfl)]
    simp only [List.tail_cons, hpw, c_str_of_word word hword]
  have hnul' : NUL ∉ rem.dropWhile is_whitespace := by
    intro h
    exact hnul ((List.dropWhile_suffix _).subset h)
  refine ⟨⟨cmark_node.mk node_command (c.try_lookup word)
    (some (rem.dropWhile is_whitespace)) [], len⟩, ?_, rfl, ?_, rfl, hlen⟩
  · simp only [try_open_block, hacc, hparse, hnsec, hcmd, skip_whitespace_eq,
      c_str_of_no_NUL _ hnul']
    simp [create_child_node, set_node, set_raw_command_type, cmark_node_set_user_data,
      cmark_node_set_string_content, cmark_node_new, cmark_node.type, cmark_node.user_data,
      cmark_node.content, cmark_node.children, mod_pointer pf _ hcode]
  · simp [get_command_type, get_raw_command_type, cmark_node.type, cmark_node.user_data,
      Nat.mod_eq_of_lt hcode]

/-- Witness of C8 (scenario E): `@returns nothing interesting` gives a command
node with argument `nothing interesting`. -/
theorem command_recognition_witness :
    try_open_block sample_platform sample_codes sample_config ⟨document, []⟩
        "@returns nothing interesting".toList 28 =
      some ⟨cmark_node.mk node_command 3 (some "nothing interesting".toList) [], 28⟩ ∧
    ∃ ob, try_open_block sample_platform sample_codes sample_config ⟨document, []⟩
        (sample_config.command_character ::
          ([] ++ "returns".toList ++ " nothing interesting".toList)) 28 = some ob ∧
      ob.node = cmark_node.mk node_command (sample_config.try_lookup "returns".toList)
        (some (" nothing interesting".toList.dropWhile is_whitespace)) [] ∧
      get_command_type sample_platform ob.node =
        some (sample_config.try_lookup "returns".toList) ∧
      get_command_arguments ob.node =
        some (some (" nothing interesting".toList.dropWhile is_whitespace)) ∧
      ob.advance = (sample_config.command_character ::
          ([] ++ "returns".toList ++ " nothing interesting".toList)).length :=
  ⟨rfl, command_recognition sample_platform sample_codes sample_config ⟨document, []⟩
    [] "returns".toList " nothing interesting".toList 28 rfl rfl
    (by simp) (by decide) (by decide) (by decide) (by decide) rfl rfl (by decide)⟩

theorem deref_cons_of_ne_NUL (l : List Char) (ch : Char) (hch : ch ≠ NUL) (h : deref l = ch) :
    ∃ t, l = ch :: t := by
  cases l with
  | nil => exact absurd h.symm hch
  | cons x t =>
    have : x = ch := h
    subst this
    exact ⟨t, rfl⟩

/-- The two outcomes of `parse_section_key`: either the text is whitespace, a
word, whitespace, `-`, whitespace and a rest not beginning with whitespace,
the word being the key and the cursor being left at the rest; or there is no
key and the cursor is where it was. -/
theorem parse_section_key_spec (cur : List Char) :
    (∃ ws1 key ws2 ws3 rest1, cur = ws1 ++ key ++ ws2 ++ '-' :: (ws3 ++ rest1) ∧
        (∀ ch ∈ ws1, is_whitespace ch = true) ∧ (∀ ch ∈ key, is_word_char ch = true) ∧
        (∀ ch ∈ ws2, is_whitespace ch = true) ∧ (∀ ch ∈ ws3, is_whitespace ch = true) ∧
        (∀ ch, rest1.head? = some ch → is_whitespace ch = false) ∧
        parse_section_key cur = (some key, rest1)) ∨
      parse_section_key cur = (none, cur) := by
  obtain ⟨ws1, h1, hws1, hkey, -⟩ := parse_word_spec cur
  obtain ⟨ws2, h2, hws2, -⟩ := skip_whitespace_spec (parse_word cur).2
  by_cases hd : deref (skip_whitespace (parse_word cur).2) = '-'
  · left
    obtain ⟨t, ht⟩ := deref_cons_of_ne_NUL _ '-' (by decide) hd
    obtain ⟨ws3, h3, hws3, hrest⟩ := skip_whitespace_spec t
    refine ⟨ws1, (parse_word cur).1, ws2, ws3, skip_whitespace t, ?_, hws1, hkey, hws2, hws3,
      hrest, ?_⟩
    · rw [← h3, ← ht, List.append_assoc _ ws2, ← h2]
      exact h1
    · unfold parse_section_key
      simp only [ht, List.tail_cons]
      rw [if_pos (by rfl)]
  · right
    simp only [parse_section_key, hd, if_false]

theorem drop_length_sub (pre rest : List Char) :
    (pre ++ rest).length - rest.length = pre.length ∧
      (pre ++ rest).drop ((pre ++ rest).length - rest.length) = rest := by
  have h : (pre ++ rest).length - rest.length = pre.length := by
    rw [List.length_append]; omega
  rw [h]
  exact ⟨rfl, List.drop_left _ _⟩

/-- C9. Section recognition cursor. When `try_open_block` returns a section
node for a line, the line is the trigger character, optional whitespace, the
directive word (a section code) and a rest; if the node has no key, the line
cursor is advanced by the length of the trigger character, whitespace and
word, and stops at that rest; if the node has a key, the rest is optional
whitespace, the key, optional whitespace, `-`, optional whitespace and a
remainder, and the line cursor is advanced by the length of everything before
that remainder. In both cases the text after the offset is the unparsed
remainder of the line. -/
theorem section_recognition_cursor (pf : Platform) (k : Codes) (c : config)
    (parent : container) (line : List Char) (len : Nat) (ob : opened_block)
    (hcc : c.command_character ≠ NUL) (hinv : k.is_section k.invalid = false)
    (hres : try_open_block pf k c parent line len = some ob)
    (hsec : ob.node.type = node_section) :
    ∃ ws0 word rest0, line = c.command_character :: (ws0 ++ word ++ rest0) ∧
      (∀ ch ∈ ws0, is_whitespace ch = true) ∧ (∀ ch ∈ word, is_word_char ch = true) ∧
      (∀ ch, rest0.head? = some ch → is_word_char ch = false) ∧
      k.is_section (c.try_lookup word) = true ∧
      (ob.node.content = none →
        ob.advance = 1 + ws0.length + word.length ∧ line.drop ob.advance = rest0) ∧
      (∀ key, ob.node.content = some key →
        ∃ ws1 ws2 ws3 rest1, rest0 = ws1 ++ key ++ ws2 ++ '-' :: (ws3 ++ rest1) ∧
          (∀ ch ∈ ws1, is_whitespace ch = true) ∧ (∀ ch ∈ key, is_word_char ch = true) ∧
          (∀ ch ∈ ws2, is_whitespace ch = true) ∧ (∀ ch ∈ ws3, is_whitespace ch = true) ∧
          (∀ ch, rest1.head? = some ch → is_whitespace ch = false) ∧
          ob.advance = 1 + ws0.length + word.length +
            (ws1.length + key.length + ws2.length + 1 + ws3.length) ∧
          line.drop ob.advance = rest1) := by
  -- the line starts with the trigger character
  have htrig : deref line = c.command_character := by
    by_contra hne
    have hp : try_parse_command k c line = (k.invalid, line) := by
      simp [try_parse_command, hne]
    unfold try_open_block at hres
    split at hres
    · cases hres
    · simp only [hp, hinv, Bool.false_eq_true, if_false] at hres
      split at hres
      · cases hres
        simp [create_child_node, set_node, set_raw_command_type, cmark_node_set_user_data,
          cmark_node_set_string_content, cmark_node_new, cmark_node.type] at hsec
      · cases hres
  obtain ⟨rest, hline⟩ := deref_cons_of_ne_NUL line _ hcc htrig
  subst hline
  obtain ⟨ws0, h0, hws0, hword, hrest0⟩ := parse_word_spec rest
  have hp : try_parse_command k c (c.command_character :: rest) =
      (c.try_lookup (parse_word rest).1, (parse_word rest).2) := by
    unfold try_parse_command
    rw [if_pos htrig]
    simp only [List.tail_cons, c_str_of_word _ hword]
  -- the section branch was taken
  unfold try_open_block at hres
  split at hres
  · cases hres
  · simp only [hp] at hres
    split at hres
    · rename_i hissec
      cases hres
      refine ⟨ws0, (parse_word rest).1, (parse_word rest).2, by rw [← h0], hws0, hword, hrest0,
        hissec, ?_, ?_⟩
      · intro hnone
        have hkey : parse_section_key (parse_word rest).2 = (none, (parse_word rest).2) := by
          rcases parse_section_key_spec (parse_word rest).2 with
            ⟨ws1, key, ws2, ws3, rest1, -, -, -, -, -, -, hk⟩ | hk
          · rw [hk] at hnone
            simp [create_child_node, set_node, set_raw_command_type, cmark_node_set_user_data,
              cmark_node_set_string_content, cmark_node_new, cmark_node.content] at hnone
          · exact hk
        simp only [hkey]
        have hsplit : c.command_character :: rest =
            (c.command_character :: (ws0 ++ (parse_word rest).1)) ++ (parse_word rest).2 := by
          rw [List.cons_append, ← h0]
        have := drop_length_sub (c.command_character :: (ws0 ++ (parse_word rest).1))
          (parse_word rest).2
        rw [← hsplit] at this
        refine ⟨?_, this.2⟩
        rw [this.1]
        simp only [List.length_cons, List.length_append]
        omega
      · intro key hsome
        rcases parse_section_key_spec (parse_word rest).2 with
          ⟨ws1, key1, ws2, ws3, rest1, hsplit1, hws1, hkey1, hws2, hws3, hrest1, hk⟩ | hk
        · rw [hk] at hsome
          have hkeq : key = key1 := by
            simp [create_child_node, set_node, set_raw_command_type, cmark_node_set_user_data,
              cmark_node_set_string_content, cmark_node_new, cmark_node.content,
              c_str_of_word _ hkey1] at hsome
            exact hsome.symm
          subst hkeq
          refine ⟨ws1, ws2, ws3, rest1, hsplit1, hws1, hkey1, hws2, hws3, hrest1, ?_⟩
          simp only [hk]
          have e : rest = ws0 ++ (parse_word rest).1 ++
              (ws1 ++ key ++ ws2 ++ '-' :: (ws3 ++ rest1)) := by
            rw [← hsplit1]; exact h0
          have e2 : ws0 ++ (parse_word rest).1 ++
              (ws1 ++ key ++ ws2 ++ '-' :: (ws3 ++ rest1)) =
              (ws0 ++ (parse_word rest).1 ++ (ws1 ++ key ++ ws2 ++ ['-'] ++ ws3)) ++ rest1 := by
            simp
          have hsplit : c.command_character :: rest =
              (c.command_character :: (ws0 ++ (parse_word rest).1 ++
                (ws1 ++ key ++ ws2 ++ ['-'] ++ ws3))) ++ rest1 := by
            rw [List.cons_append, ← e2, ← e]
          have := drop_length_sub (c.command_character :: (ws0 ++ (parse_word rest).1 ++
                (ws1 ++ key ++ ws2 ++ ['-'] ++ ws3))) rest1
          rw [← hsplit] at this
          refine ⟨?_, this.2⟩
          rw [this.1]
          simp only [List.length_cons, List.length_append, List.length_nil]
          omega
        · rw [hk] at hsome
          simp [create_child_node, set_node, set_raw_command_type, cmark_node_set_user_data,
            cmark_node_set_string_content, cmark_node_new, cmark_node.content] at hsome
    · split at hres
      · cases hres
        simp [create_child_node, set_node, set_raw_command_type, cmark_node_set_user_data,
          cmark_node_set_string_content, cmark_node_new, cmark_node.type] at hsec
      · cases hres

/-- Witness of C9: `@param name - rest of text` under the sample
configuration; the section node has key `name` and the line cursor is
advanced by 14 characters. -/
theorem section_recognition_cursor_witness :
    try_open_block sample_platform sample_codes sample_config ⟨document, []⟩
        "@param name - rest of text".toList 26 =
      some ⟨cmark_node.mk node_section 12 (some "name".toList) [], 14⟩ ∧
    ∃ ws0 word rest0,
      "@param name - rest of text".toList =
        sample_config.command_character :: (ws0 ++ word ++ rest0) ∧
      (∀ ch ∈ ws0, is_whitespace ch = true) ∧ (∀ ch ∈ word, is_word_char ch = true) ∧
      (∀ ch, rest0.head? = some ch → is_word_char ch = false) ∧
      sample_codes.is_section (sample_config.try_lookup word) = true ∧
      ((cmark_node.mk node_section 12 (some "name".toList) []).content = none →
        14 = 1 + ws0.length + word.length ∧
          "@param name - rest of text".toList.drop 14 = rest0) ∧
      (∀ key, (cmark_node.mk node_section 12 (some "name".toList) []).content = some key →
        ∃ ws1 ws2 ws3 rest1, rest0 = ws1 ++ key ++ ws2 ++ '-' :: (ws3 ++ rest1) ∧
          (∀ ch ∈ ws1, is_whitespace ch = true) ∧ (∀ ch ∈ key, is_word_char ch = true) ∧
          (∀ ch ∈ ws2, is_whitespace ch = true) ∧ (∀ ch ∈ ws3, is_whitespace ch = true) ∧
          (∀ ch, rest1.head? = some ch → is_whitespace ch = false) ∧
          14 = 1 + ws0.length + word.length +
            (ws1.length + key.length + ws2.length + 1 + ws3.length) ∧
          "@param name - rest of text".toList.drop 14 = rest1) :=
  ⟨rfl, section_recognition_cursor sample_platform sample_codes sample_config ⟨document, []⟩
    "@param name - rest of text".toList 26
    ⟨cmark_node.mk node_section 12 (some "name".toList) [], 14⟩ (by decide) rfl rfl rfl⟩

/-- C11. Containment predicate. For every child kind: a command container
rejects it; a section container tagged details accepts it exactly when it is
a block-level kind; a section container with any other code accepts it
exactly when it is the paragraph kind. -/
theorem containment_predicate (pf : Platform) (k : Codes) (node : cmark_node)
    (child_type : cmark_node_type) :
    (node.type = node_command → can_contain_func pf k node child_type = false) ∧
      (node.type = node_section → get_section_type pf node = some k.details →
        (can_contain_func pf k node child_type = true ↔ is_block_type child_type = true)) ∧
      (node.type = node_section → get_section_type pf node ≠ some k.details →
        (can_contain_func pf k node child_type = true ↔ child_type = paragraph)) := by
  refine ⟨?_, ?_, ?_⟩
  · intro h
    simp [can_contain_func, h]
  · intro h hd
    simp [can_contain_func, h, hd]
  · intro h hd
    simp [can_contain_func, h, hd]

/-- C12. May-open-directive-here. The predicate `accept_commands` is true if
and only if the parent is neither a section nor a command node and either the
parent is of kind document or the parent's own parent is; whenever it is
false `try_open_block` returns null for every configuration and every line. -/
theorem may_open_directive_here (pf : Platform) (k : Codes) (c : config) (p : container)
    (line : List Char) (len : Nat) :
    (accept_commands p = true ↔
        (p.type ≠ node_section ∧ p.type ≠ node_command ∧
          (p.type = document ∨ p.parent_type = document))) ∧
      (accept_commands p = false → try_open_block pf k c p line len = none) := by
  refine ⟨?_, ?_⟩
  · by_cases h1 : p.type = node_section
    · simp [accept_commands, h1]
    · by_cases h2 : p.type = node_command
      · simp [accept_commands, h2]
      · simp [accept_commands, h1, h2]
  · intro h
    simp [try_open_block, h]

theorem accept_commands_false_of_deep (p : container) (hroot : document_rooted p)
    (hdeep : 2 ≤ p.ancestors.length) : accept_commands p = false := by
  obtain ⟨t, anc⟩ := p
  obtain ⟨-, hnot⟩ := hroot
  cases anc with
  | nil => simp at hdeep
  | cons a1 rest =>
    cases rest with
    | nil => simp at hdeep
    | cons a2 rest =>
      simp only [List.dropLast_cons₂, List.mem_cons, not_or] at hnot
      obtain ⟨ht, ha1, -⟩ := hnot
      have ht' : t ≠ document := fun h => ht h.symm
      have ha1' : a1 ≠ document := fun h => ha1 h.symm
      simp [accept_commands, container.parent_type, ht', ha1']

/-- C13. Nesting depth. In a tree rooted at a document node, `try_open_block`
returns null, whatever the configuration and the line, when the parent or one
of its ancestors is a section or command node, and when the parent lies two
or more levels below the document root. -/
theorem nesting_depth (pf : Platform) (k : Codes) (c : config) (p : container)
    (line : List Char) (len : Nat) (hroot : document_rooted p)
    (h : (∃ t ∈ p.type :: p.ancestors, t = node_section ∨ t = node_command) ∨
      2 ≤ p.ancestors.length) :
    try_open_block pf k c p line len = none := by
  have hacc : accept_commands p = false := by
    rcases h with ⟨t, ht, hsc⟩ | hdeep
    · rcases List.mem_cons.mp ht with ht | ht
      · subst ht
        rcases hsc with hsc | hsc <;> simp [accept_commands, hsc]
      · apply accept_commands_false_of_deep p hroot
        obtain ⟨ty, anc⟩ := p
        cases anc with
        | nil => simp at ht
        | cons a1 rest =>
          cases rest with
          | nil =>
            obtain ⟨hlast, -⟩ := hroot
            simp at hlast ht
            subst hlast
            subst ht
            rcases hsc with hsc | hsc <;> cases hsc
          | cons a2 rest => simp
    · exact accept_commands_false_of_deep p hroot hdeep
  simp [try_open_block, hacc]

/-- Witness of C13: a paragraph inside a list item inside a list under the
root (three levels down), and a paragraph inside a section under the root. -/
theorem nesting_depth_witness :
    try_open_block sample_platform sample_codes sample_config ⟨paragraph, [item, list, document]⟩
        "@returns x".toList 10 = none ∧
      try_open_block sample_platform sample_codes sample_config
        ⟨paragraph, [node_section, document]⟩ "@returns x".toList 10 = none :=
  ⟨nesting_depth sample_platform sample_codes sample_config ⟨paragraph, [item, list, document]⟩
      "@returns x".toList 10 ⟨rfl, by decide⟩ (Or.inr (by decide)),
    nesting_depth sample_platform sample_codes sample_config
      ⟨paragraph, [node_section, document]⟩ "@returns x".toList 10 ⟨rfl, by decide⟩
      (Or.inl ⟨node_section, by decide, Or.inl rfl⟩)⟩

/-- C14. Node tagging round trip. For every code that fits in `unsigned` and
every optional text, after `set_node` the user data slot holds the code (the
widening to a pointer keeps the value), `get_raw_command_type` reads back
exactly the code, and the string content read back is the text given (absent
stays absent); kind and children of the node are untouched. -/
theorem tagging_round_trip (pf : Platform) (node : cmark_node) (code : Nat)
    (str : Option (List Char)) (hcode : code < 2 ^ pf.unsigned_bits) :
    (set_node pf node code str).user_data = code ∧
      get_raw_command_type pf (set_node pf node code str) = code ∧
      (set_node pf node code str).content = str ∧
      (set_node pf node code str).type = node.type ∧
      (set_node pf node code str).children = node.children := by
  refine ⟨?_, ?_, rfl, rfl, rfl⟩
  · exact mod_pointer pf code hcode
  · exact raw_roundtrip pf code hcode

/-- Witness of C14: the largest 32-bit code with a key, and a code without
text, on the sample platform. -/
theorem tagging_round_trip_witness :
    ((set_node sample_platform (cmark_node_new node_section) 4294967295
          (some "name".toList)).user_data = 4294967295 ∧
      get_raw_command_type sample_platform
        (set_node sample_platform (cmark_node_new node_section) 4294967295
          (some "name".toList)) = 4294967295 ∧
      (set_node sample_platform (cmark_node_new node_section) 4294967295
          (some "name".toList)).content = some "name".toList ∧
      (set_node sample_platform (cmark_node_new node_section) 4294967295
          (some "name".toList)).type = (cmark_node_new node_section).type ∧
      (set_node sample_platform (cmark_node_new node_section) 4294967295
          (some "name".toList)).children = (cmark_node_new node_section).children) ∧
    (set_node sample_platform (cmark_node_new node_section) 11 none).content = none :=
  ⟨tagging_round_trip sample_platform (cmark_node_new node_section) 4294967295
    (some "name".toList) (by decide), rfl⟩

/-- C15. Accessor preconditions. Reading the section code or the section key
fails (the assertion) if and only if the node is not of kind section; reading
the command code or the command arguments fails if and only if the node is
not of kind command; on a node of the right kind tagged by `set_node` each
accessor returns the value stored. -/
theorem accessor_preconditions (pf : Platform) (node : cmark_node) (code : Nat)
    (str : Option (List Char)) (hcode : code < 2 ^ pf.unsigned_bits) :
    (get_section_type pf node = none ↔ node.type ≠ node_section) ∧
      (get_section_key node = none ↔ node.type ≠ node_section) ∧
      (get_command_type pf node = none ↔ node.type ≠ node_command) ∧
      (get_command_arguments node = none ↔ node.type ≠ node_command) ∧
      (node.type = node_section →
        get_section_type pf (set_node pf node code str) = some code ∧
          get_section_key (set_node pf node code str) = some str) ∧
      (node.type = node_command →
        get_command_type pf (set_node pf node code str) = some code ∧
          get_command_arguments (set_node pf node code str) = some str) := by
  have hraw : get_raw_command_type pf (set_node pf node code str) = code :=
    raw_roundtrip pf code hcode
  have htype : (set_node pf node code str).type = node.type := rfl
  have hcontent : (set_node pf node code str).content = str := rfl
  refine ⟨?_, ?_, ?_, ?_, ?_, ?_⟩
  · unfold get_section_type; split <;> simp_all
  · unfold get_section_key; split <;> simp_all
  · unfold get_command_type; split <;> simp_all
  · unfold get_command_arguments; split <;> simp_all
  · intro h
    simp only [get_section_type, get_section_key, htype, h, if_true, hraw, hcontent, and_self]
  · intro h
    simp only [get_command_type, get_command_arguments, htype, h, if_true, hraw, hcontent,
      and_self]

/-- Witness of C15: a section node tagged with code 12 and key `name` on the
sample platform. -/
theorem accessor_preconditions_witness :
    (get_section_type sample_platform (cmark_node_new node_section) = none ↔
        (cmark_node_new node_section).type ≠ node_section) ∧
      (get_section_key (cmark_node_new node_section) = none ↔
        (cmark_node_new node_section).type ≠ node_section) ∧
      (get_command_type sample_platform (cmark_node_new node_section) = none ↔
        (cmark_node_new node_section).type ≠ node_command) ∧
      (get_command_arguments (cmark_node_new node_section) = none ↔
        (cmark_node_new node_section).type ≠ node_command) ∧
      ((cmark_node_new node_section).type = node_section →
        get_section_type sample_platform
            (set_node sample_platform (cmark_node_new node_section) 12
              (some "name".toList)) = some 12 ∧
          get_section_key (set_node sample_platform (cmark_node_new node_section) 12
              (some "name".toList)) = some (some "name".toList)) ∧
      ((cmark_node_new node_section).type = node_command →
        get_command_type sample_platform
            (set_node sample_platform (cmark_node_new node_section) 12
              (some "name".toList)) = some 12 ∧
          get_command_arguments (set_node sample_platform (cmark_node_new node_section) 12
              (some "name".toList)) = some (some "name".toList)) :=
  accessor_preconditions sample_platform (cmark_node_new node_section) 12
    (some "name".toList) (by decide)

theorem tree_ok_iff (pf : Platform) (k : Codes) (n : cmark_node) :
    tree_ok pf k n ↔ local_ok pf k n ∧ trees_ok pf k n.children := by
  cases n with
  | mk t u c cs => simp [tree_ok, cmark_node.children]

theorem trees_ok_iff (pf : Platform) (k : Codes) (l : List cmark_node) :
    trees_ok pf k l ↔ ∀ n ∈ l, tree_ok pf k n := by
  induction l with
  | nil => simp [trees_ok]
  | cons x xs ih => simp [trees_ok, ih]

/-- A block wrapped in a newly created details section satisfies the
invariants, the code being read back as details. -/
theorem tree_ok_new_details (pf : Platform) (k : Codes) (hd : k.details < 2 ^ pf.unsigned_bits)
    (n : cmark_node) (hn : tree_ok pf k n) :
    tree_ok pf k (cmark_node_append_child (create_node pf node_section k.details none) n) := by
  rw [tree_ok_iff]
  refine ⟨⟨?_, ?_⟩, ?_⟩
  · intro h; cases h
  · intro _ hnot
    exact absurd (is_details_new pf k hd n).2 hnot
  · rw [trees_ok_iff]
    intro x hx
    have : x = n := by
      simpa [cmark_node_append_child, cmark_node.children, create_node_eq] using hx
    rw [this]; exact hn

/-- A paragraph wrapped in a newly created brief section satisfies the
invariants. -/
theorem tree_ok_new_brief (pf : Platform) (k : Codes) (p : cmark_node)
    (hp : p.type = paragraph) (hn : tree_ok pf k p) :
    tree_ok pf k (cmark_node_append_child (create_node pf node_section k.brief none) p) := by
  rw [tree_ok_iff]
  refine ⟨⟨?_, ?_⟩, ?_⟩
  · intro h; cases h
  · intro _ _ x hx
    have : x = p := by
      simpa [cmark_node_append_child, cmark_node.children, create_node_eq] using hx
    rw [this]; exact hp
  · rw [trees_ok_iff]
    intro x hx
    have : x = p := by
      simpa [cmark_node_append_child, cmark_node.children, create_node_eq] using hx
    rw [this]; exact hn

/-- Appending a block to a details section keeps the invariants. -/
theorem tree_ok_append_details (pf : Platform) (k : Codes) (d n : cmark_node)
    (hdet : is_details pf k d) (hd : tree_ok pf k d) (hn : tree_ok pf k n) :
    tree_ok pf k (cmark_node_append_child d n) := by
  rw [tree_ok_iff] at hd ⊢
  have hdet' := is_details_of_extends pf k (extends_node_append d n) hdet
  refine ⟨⟨?_, ?_⟩, ?_⟩
  · intro h
    rw [hdet'.1] at h
    cases h
  · intro _ hnot
    exact absurd hdet'.2 hnot
  · rw [trees_ok_iff] at hd ⊢
    intro x hx
    have hx' : x ∈ d.children ∨ x = n := by
      simpa [cmark_node_append_child, cmark_node.children] using hx
    rcases hx' with hx' | hx'
    · exact hd.2 x hx'
    · rw [hx']; exact hn

theorem is_block_type_section_append (d n : cmark_node) (h : d.type = node_section) :
    is_block_type (cmark_node_append_child d n).type = true := by
  have : (cmark_node_append_child d n).type = node_section := h
  rw [this]; rfl

/-- One iteration keeps the invariants and the block-level top level. -/
theorem settle_step_ok (pf : Platform) (k : Codes) (hd : k.details < 2 ^ pf.unsigned_bits)
    (acc : List cmark_node × List cmark_node) (n : cmark_node)
    (hn : tree_ok pf k n) (hnb : is_block_type n.type = true)
    (hacc : ∀ x ∈ acc.1, tree_ok pf k x ∧ is_block_type x.type = true) :
    ∀ x ∈ (settle_step pf k acc n).1, tree_ok pf k x ∧ is_block_type x.type = true := by
  rcases settle_step_cases pf k acc n with ⟨-, h⟩ | ⟨-, -, h⟩ | ⟨-, cmds, d, before, hp, -, hdet, h⟩
  · rw [h]
    intro x hx
    rcases List.mem_cons.mp hx with hx | hx
    · rw [hx]; exact ⟨hn, hnb⟩
    · exact hacc x hx
  · rw [h]
    intro x hx
    rcases List.mem_cons.mp hx with hx | hx
    · rw [hx]; exact ⟨tree_ok_new_details pf k hd n hn, rfl⟩
    · exact hacc x hx
  · rw [h]
    intro x hx
    have hdm : d ∈ acc.1 := by rw [hp]; simp
    rcases List.mem_append.mp hx with hx | hx
    · exact hacc x (by rw [hp]; exact List.mem_append_left _ hx)
    · rcases List.mem_cons.mp hx with hx | hx
      · rw [hx]
        exact ⟨tree_ok_append_details pf k d n hdet (hacc d hdm).1 hn,
          is_block_type_section_append d n hdet.1⟩
      · exact hacc x (by rw [hp]; exact List.mem_append_right _ (List.mem_cons_of_mem _ hx))

theorem settle_first_ok (pf : Platform) (k : Codes) (hd : k.details < 2 ^ pf.unsigned_bits)
    (c : cmark_node) (hc : tree_ok pf k c) (hcb : is_block_type c.type = true) :
    ∀ x ∈ (settle_first pf k c).1, tree_ok pf k x ∧ is_block_type x.type = true := by
  unfold settle_first
  split
  · rename_i hp
    split
    · intro x hx
      have : x = cmark_node_append_child (create_node pf node_section k.brief none) c := by
        simpa using hx
      rw [this]; exact ⟨tree_ok_new_brief pf k c hp hc, rfl⟩
    · intro x hx
      have : x = cmark_node_append_child (create_node pf node_section k.details none) c := by
        simpa using hx
      rw [this]; exact ⟨tree_ok_new_details pf k hd c hc, rfl⟩
  · exact settle_step_ok pf k hd ([], []) c hc hcb (fun x hx => absurd hx (List.not_mem_nil _))

theorem settle_all_ok (pf : Platform) (k : Codes) (hd : k.details < 2 ^ pf.unsigned_bits)
    (l : List cmark_node) (hl : ∀ n ∈ l, tree_ok pf k n ∧ is_block_type n.type = true) :
    ∀ x ∈ (settle_all pf k l).1, tree_ok pf k x ∧ is_block_type x.type = true := by
  cases l with
  | nil => intro x hx; simp [settle_all] at hx
  | cons c rest =>
    simp only [settle_all]
    refine settle_induct pf k
      (fun acc => ∀ x ∈ acc.1, tree_ok pf k x ∧ is_block_type x.type = true) rest ?_ _ ?_
    · intro acc n hn hacc
      have := hl n (List.mem_cons_of_mem _ hn)
      exact settle_step_ok pf k hd acc n this.1 this.2 hacc
    · have := hl c (List.mem_cons_self _ _)
      exact settle_first_ok pf k hd c this.1 this.2

/-- A top-level command, or section not tagged details, is still a top-level
node, unchanged, after the iterations. -/
theorem settle_all_unchanged (pf : Platform) (k : Codes) (l : List cmark_node) :
    ∀ n ∈ l, (n.type = node_section ∨ n.type = node_command) → ¬ is_details pf k n →
      n ∈ (settle_all pf k l).1 := by
  intro n hn hsc hnd
  refine settle_all_track pf k (fun n => n.type = node_section ∨ n.type = node_command)
    (fun n l => ¬ is_details pf k n → n ∈ l) ?_ ?_ ?_ l n hn hsc hnd
  · intro c hc _
    have hnp : c.type ≠ paragraph := by
      rcases hc with hc | hc <;> rw [hc] <;> decide
    rw [settle_first_not_paragraph pf k c hnp]
    simp [settle_step, hc]
  · intro acc m hm _
    simp [settle_step, hm]
  · intro acc m x h hx
    obtain ⟨b, hb, -, hsame⟩ := settle_step_image pf k acc m x (h hx)
    rw [hsame hx] at hb
    exact hb

/-- A created node tagged brief comes from the first iteration, on a first
child that is a paragraph without breaks. -/
theorem settle_all_created_brief (pf : Platform) (k : Codes)
    (hd : k.details < 2 ^ pf.unsigned_bits) (hne : k.brief ≠ k.details)
    (l : List cmark_node) (c : cmark_node) (hc : c ∈ (settle_all pf k l).2)
    (hcb : get_section_type pf c = some k.brief) :
    ∃ p rest, l = p :: rest ∧ p.type = paragraph ∧ paragraph_can_be_brief p = true ∧
      c = create_node pf node_section k.brief none := by
  cases l with
  | nil => simp [settle_all] at hc
  | cons p rest =>
    simp only [settle_all] at hc
    obtain ⟨newc, h1, h2⟩ := settle_created pf k rest (settle_first pf k p)
    rw [h1] at hc
    rcases List.mem_append.mp hc with hc | hc
    · rcases settle_first_created pf k p with ⟨hp, hbrief, hf⟩ | ⟨-, hf⟩
      · rw [hf] at hc
        exact ⟨p, rest, rfl, hp, hbrief, by simpa using hc⟩
      · rw [hf c hc] at hcb
        exact absurd hcb (not_brief_created_details pf k hd hne)
    · rw [h2 c hc] at hcb
      exact absurd hcb (not_brief_created_details pf k hd hne)

/-- C16. Structural invariants are preserved by the structuring pass. If in
the input every command node is a leaf and every section not tagged details
has only paragraph children (at every depth below the root), and every
top-level child of the root is block-level, then the pass returns and the
same holds of the result. A created node tagged brief stands first with
exactly one child, a paragraph none of whose direct children is a soft break
or a hard break; and every top-level command, or section not tagged details, is still a top-level node,
unchanged (nothing was appended to it). -/
theorem invariants_preserved (pf : Platform) (k : Codes)
    (hb : k.brief < 2 ^ pf.unsigned_bits) (hd : k.details < 2 ^ pf.unsigned_bits)
    (hne : k.brief ≠ k.details) (root : cmark_node)
    (hok : trees_ok pf k root.children)
    (hblock : ∀ n ∈ root.children, is_block_type n.type = true) :
    ∃ r, create_implicit_brief_details pf k root = some r ∧
      trees_ok pf k r.root.children ∧
      (∀ n ∈ r.root.children, is_block_type n.type = true) ∧
      (∀ c ∈ r.created, get_section_type pf c = some k.brief →
        ∃ p out, r.root.children = cmark_node_append_child c p :: out ∧
          (cmark_node_append_child c p).children = [p] ∧
          p.type = paragraph ∧
          ∀ x ∈ p.children, x.type ≠ softbreak ∧ x.type ≠ linebreak) ∧
      (∀ n ∈ root.children, (n.type = node_section ∨ n.type = node_command) →
        ¬ is_details pf k n → n ∈ r.root.children) := by
  obtain ⟨r, hr⟩ : ∃ r, create_implicit_brief_details pf k root = some r := ⟨_, pass_eq pf k root⟩
  obtain ⟨hch, hcr, -⟩ := root_children_of_pass pf k root r hr
  rw [trees_ok_iff] at hok
  have hall := settle_all_ok pf k hd root.children (fun n hn => ⟨hok n hn, hblock n hn⟩)
  refine ⟨r, hr, ?_, ?_, ?_, ?_⟩
  · rw [trees_ok_iff, hch]
    intro n hn
    exact (hall n (List.mem_reverse.mp hn)).1
  · rw [hch]
    intro n hn
    exact (hall n (List.mem_reverse.mp hn)).2
  · intro c hc hcb
    rw [hcr] at hc
    obtain ⟨p, rest, hl, hp, hbrief, hceq⟩ :=
      settle_all_created_brief pf k hd hne root.children c hc hcb
    obtain ⟨out, hout⟩ := settle_all_brief_head pf k hb hne p rest hp hbrief
    refine ⟨p, out, ?_, ?_, hp, (paragraph_can_be_brief_iff p).mp hbrief⟩
    · rw [hch, hl, hceq]; exact hout
    · rw [hceq]; rfl
  · intro n hn hsc hnd
    rw [hch]
    exact List.mem_reverse.mpr (settle_all_unchanged pf k root.children n hn hsc hnd)

/-- Witness of C16: the document `[paragraph "Brief.", command, list]`, where
a brief is created around the one-line paragraph, and the document made of a
two-line paragraph, where a details section is created and no brief. -/
theorem invariants_preserved_witness :
    (create_implicit_brief_details sample_platform sample_codes
        (sample_document [sample_paragraph "Brief.", cmark_node.mk node_command 3 (some []) [],
          cmark_node.mk list 0 none []]) =
      some ⟨sample_document [cmark_node.mk node_section 10 none [sample_paragraph "Brief."],
          cmark_node.mk node_command 3 (some []) [],
          cmark_node.mk node_section 11 none [cmark_node.mk list 0 none []]],
        [cmark_node.mk node_section 10 none [], cmark_node.mk node_section 11 none []], none⟩ ∧
    ∃ r, create_implicit_brief_details sample_platform sample_codes
        (sample_document [sample_paragraph "Brief.", cmark_node.mk node_command 3 (some []) [],
          cmark_node.mk list 0 none []]) = some r ∧
      trees_ok sample_platform sample_codes r.root.children ∧
      (∀ n ∈ r.root.children, is_block_type n.type = true) ∧
      (∀ c ∈ r.created, get_section_type sample_platform c = some sample_codes.brief →
        ∃ p out, r.root.children = cmark_node_append_child c p :: out ∧
          (cmark_node_append_child c p).children = [p] ∧
          p.type = paragraph ∧
          ∀ x ∈ p.children, x.type ≠ softbreak ∧ x.type ≠ linebreak) ∧
      (∀ n ∈ (sample_document [sample_paragraph "Brief.",
          cmark_node.mk node_command 3 (some []) [], cmark_node.mk list 0 none []]).children,
        (n.type = node_section ∨ n.type = node_command) →
        ¬ is_details sample_platform sample_codes n → n ∈ r.root.children)) ∧
    (create_implicit_brief_details sample_platform sample_codes
        (sample_document [sample_two_line_paragraph]) =
      some ⟨sample_document [cmark_node.mk node_section 11 none [sample_two_line_paragraph]],
        [cmark_node.mk node_section 11 none []], none⟩ ∧
    ∃ r, create_implicit_brief_details sample_platform sample_codes
        (sample_document [sample_two_line_paragraph]) = some r ∧
      trees_ok sample_platform sample_codes r.root.children ∧
      (∀ n ∈ r.root.children, is_block_type n.type = true) ∧
      (∀ c ∈ r.created, get_section_type sample_platform c = some sample_codes.brief →
        ∃ p out, r.root.children = cmark_node_append_child c p :: out ∧
          (cmark_node_append_child c p).children = [p] ∧
          p.type = paragraph ∧
          ∀ x ∈ p.children, x.type ≠ softbreak ∧ x.type ≠ linebreak) ∧
      (∀ n ∈ (sample_document [sample_two_line_paragraph]).children,
        (n.type = node_section ∨ n.type = node_command) →
        ¬ is_details sample_platform sample_codes n → n ∈ r.root.children)) :=
  ⟨⟨rfl, invariants_preserved sample_platform sample_codes (by decide) (by decide) (by decide)
    (sample_document [sample_paragraph "Brief.", cmark_node.mk node_command 3 (some []) [],
      cmark_node.mk list 0 none []])
    (by simp [sample_document, sample_paragraph, sample_text, cmark_node.children, trees_ok,
      tree_ok, local_ok, cmark_node.type])
    (by simp [sample_document, sample_paragraph, cmark_node.children, cmark_node.type,
      is_block_type])⟩,
   ⟨rfl, invariants_preserved sample_platform sample_codes (by decide) (by decide) (by decide)
    (sample_document [sample_two_line_paragraph])
    (by simp [sample_document, sample_two_line_paragraph, sample_text, cmark_node.children,
      trees_ok, tree_ok, local_ok, cmark_node.type])
    (by simp [sample_document, sample_two_line_paragraph, cmark_node.children, cmark_node.type,
      is_block_type])⟩⟩

theorem deref_eq_iff_head (l : List Char) (ch : Char) (hch : ch ≠ NUL) :
    deref l = ch ↔ l.head? = some ch := by
  cases l with
  | nil =>
    simp only [deref, List.headD_nil, List.head?_nil]
    constructor
    · intro h; exact absurd h.symm hch
    · intro h; cases h
  | cons x t => simp [deref]

/-- C17. Section key parsing. The result of `parse_section_key` is the one
the specification words: a key is reported present if and only if, after one
whitespace-delimited word and the whitespace after it, the next character is
`-`; the key is then that word and the cursor ends after the `-` and the
whitespace following it; in every other case no key is reported and the
cursor is exactly where it was before the attempt. -/
theorem section_key_parsing (cur : List Char) :
    parse_section_key cur = key_by_words cur ∧
      ((parse_section_key cur).1.isSome = true ↔
        (((cur.dropWhile is_whitespace).dropWhile is_word_char).dropWhile
          is_whitespace).head? = some '-') ∧
      ((parse_section_key cur).1.isSome = true →
        (parse_section_key cur).1 =
            some ((cur.dropWhile is_whitespace).takeWhile is_word_char) ∧
          (parse_section_key cur).2 =
            ((((cur.dropWhile is_whitespace).dropWhile is_word_char).dropWhile
              is_whitespace).tail).dropWhile is_whitespace) ∧
      ((parse_section_key cur).1 = none → (parse_section_key cur).2 = cur) := by
  have hdash : ('-' : Char) ≠ NUL := by decide
  have heq : parse_section_key cur = key_by_words cur := by
    unfold parse_section_key key_by_words
    simp only [parse_word_eq, skip_whitespace_eq, deref_eq_iff_head _ _ hdash]
  rw [heq]
  unfold key_by_words
  refine ⟨rfl, ?_, ?_, ?_⟩
  · split <;> simp_all
  · split <;> simp_all
  · split <;> simp_all

theorem find_non_command_eq (prev : List cmark_node) :
    prev.find? (fun x => x.type != node_command) =
      (prev.dropWhile (fun d => decide (d.type = node_command))).head? := by
  induction prev with
  | nil => rfl
  | cons x xs ih =>
    by_cases hx : x.type = node_command
    · simp [List.find?_cons, List.dropWhile_cons, hx, ih]
    · simp [List.find?_cons, List.dropWhile_cons, hx]

/-- Function `prev_details` returns the nearest previous sibling that is not
a command when it is a details section, with the commands skipped. -/
theorem prev_details_of_nearest (pf : Platform) (k : Codes) (prev : List cmark_node)
    (d : cmark_node) (hfind : prev.find? (fun x => x.type != node_command) = some d)
    (hdet : is_details pf k d) :
    ∃ cmds before, prev = cmds ++ d :: before ∧ (∀ x ∈ cmds, x.type = node_command) ∧
      prev_details pf k prev = some ⟨cmds, d, before⟩ := by
  rw [find_non_command_eq] at hfind
  cases hdw : prev.dropWhile (fun d => decide (d.type = node_command)) with
  | nil => rw [hdw] at hfind; cases hfind
  | cons d' before =>
    rw [hdw] at hfind
    simp only [List.head?_cons, Option.some.injEq] at hfind
    subst hfind
    refine ⟨prev.takeWhile (fun d => decide (d.type = node_command)), before, ?_, ?_, ?_⟩
    · rw [← hdw]; exact (List.takeWhile_append_dropWhile _ prev).symm
    · intro x hx
      simpa using List.mem_takeWhile_imp hx
    · obtain ⟨ht, hs⟩ := hdet
      simp [prev_details, hdw, ht, hs]

/-- C18. Details-wrap treats commands as transparent. When `wrap_in_details`
is applied to a block `cur` whose nearest previous sibling that is not a
command is a section `d` tagged details, the previous siblings are commands
`cmds`, then `d`; `cur` becomes the last child of `d`, no node is created, and
the top-level siblings are the same as before in the same order, `cur`
removed: the commands between `d` and `cur` stay top-level, in place. -/
theorem details_wrap_transparent_commands (pf : Platform) (k : Codes) (s : pass_state)
    (cur d : cmark_node) (next : List cmark_node) (hcur : s.cur_next = cur :: next)
    (hfind : s.prev.find? (fun x => x.type != node_command) = some d)
    (hdet : is_details pf k d) :
    ∃ cmds before, s.prev = cmds ++ d :: before ∧ (∀ x ∈ cmds, x.type = node_command) ∧
      wrap_in_details pf k s =
        { prev := before,
          cur_next := cmark_node_append_child d cur :: (cmds.reverse ++ next),
          need_brief := s.need_brief, created := s.created } ∧
      (cmark_node_append_child d cur).children = d.children ++ [cur] ∧
      s.siblings = before.reverse ++ d :: (cmds.reverse ++ cur :: next) ∧
      (wrap_in_details pf k s).siblings =
        before.reverse ++ cmark_node_append_child d cur :: (cmds.reverse ++ next) := by
  obtain ⟨cmds, before, hprev, hcmds, hpd⟩ := prev_details_of_nearest pf k s.prev d hfind hdet
  have hwrap : wrap_in_details pf k s =
      { prev := before,
        cur_next := cmark_node_append_child d cur :: (cmds.reverse ++ next),
        need_brief := s.need_brief, created := s.created } := by
    simp only [wrap_in_details, hcur, hpd]
  refine ⟨cmds, before, hprev, hcmds, hwrap, rfl, ?_, ?_⟩
  · simp [pass_state.siblings, hprev, hcur]
  · rw [hwrap]
    simp [pass_state.siblings]

/-- Witness of C18: `[section(details) D], [command X], [list L]` becomes
`[D -> ..., L], [command X]`. -/
theorem details_wrap_transparent_commands_witness :
    (∃ cmds before,
      [cmark_node.mk node_command 3 (some []) [],
          cmark_node.mk node_section 11 none [sample_paragraph "More."]] =
        cmds ++ cmark_node.mk node_section 11 none [sample_paragraph "More."] :: before ∧
      (∀ x ∈ cmds, x.type = node_command) ∧
      wrap_in_details sample_platform sample_codes
          ⟨[cmark_node.mk node_command 3 (some []) [],
              cmark_node.mk node_section 11 none [sample_paragraph "More."]],
            [cmark_node.mk list 0 none []], false, []⟩ =
        { prev := before,
          cur_next := cmark_node_append_child
            (cmark_node.mk node_section 11 none [sample_paragraph "More."])
            (cmark_node.mk list 0 none []) :: (cmds.reverse ++ []),
          need_brief := false, created := [] } ∧
      (cmark_node_append_child (cmark_node.mk node_section 11 none [sample_paragraph "More."])
          (cmark_node.mk list 0 none [])).children =
        (cmark_node.mk node_section 11 none [sample_paragraph "More."]).children ++
          [cmark_node.mk list 0 none []] ∧
      pass_state.siblings
          ⟨[cmark_node.mk node_command 3 (some []) [],
              cmark_node.mk node_section 11 none [sample_paragraph "More."]],
            [cmark_node.mk list 0 none []], false, []⟩ =
        before.reverse ++ cmark_node.mk node_section 11 none [sample_paragraph "More."] ::
          (cmds.reverse ++ cmark_node.mk list 0 none [] :: []) ∧
      (wrap_in_details sample_platform sample_codes
          ⟨[cmark_node.mk node_command 3 (some []) [],
              cmark_node.mk node_section 11 none [sample_paragraph "More."]],
            [cmark_node.mk list 0 none []], false, []⟩).siblings =
        before.reverse ++ cmark_node_append_child
          (cmark_node.mk node_section 11 none [sample_paragraph "More."])
          (cmark_node.mk list 0 none []) :: (cmds.reverse ++ [])) ∧
    create_implicit_brief_details sample_platform sample_codes
        (sample_document [cmark_node.mk node_section 11 none [sample_paragraph "More."],
          cmark_node.mk node_command 3 (some []) [], cmark_node.mk list 0 none []]) =
      some ⟨sample_document [cmark_node.mk node_section 11 none
            [sample_paragraph "More.", cmark_node.mk list 0 none []],
          cmark_node.mk node_command 3 (some []) []], [], none⟩ :=
  ⟨details_wrap_transparent_commands sample_platform sample_codes
    ⟨[cmark_node.mk node_command 3 (some []) [],
        cmark_node.mk node_section 11 none [sample_paragraph "More."]],
      [cmark_node.mk list 0 none []], false, []⟩
    (cmark_node.mk list 0 none [])
    (cmark_node.mk node_section 11 none [sample_paragraph "More."]) [] rfl
    (by simp [List.find?_cons, cmark_node.type])
    ⟨rfl, by decide⟩, rfl⟩

theorem is_whitespace_iff (c : Char) :
    is_whitespace c = true ↔ (c = ' ' ∨ c = '\t' ∨ c = '\n') := by
  simp [is_whitespace, or_assoc]

theorem takeWhile_dropWhile_congr {p q : Char → Bool} (l : List Char)
    (h : ∀ c ∈ l, p c = q c) :
    l.takeWhile p = l.takeWhile q ∧ l.dropWhile p = l.dropWhile q := by
  induction l with
  | nil => exact ⟨rfl, rfl⟩
  | cons x xs ih =>
    have hx := h x (List.mem_cons_self _ _)
    obtain ⟨ih1, ih2⟩ := ih (fun c hc => h c (List.mem_cons_of_mem _ hc))
    simp only [List.takeWhile_cons, List.dropWhile_cons, hx, ih1, ih2, and_self]

theorem is_word_char_of_ne_NUL (c : Char) (h : c ≠ NUL) :
    is_word_char c = !is_whitespace c := by
  simp [is_word_char, h]

/-- C19. Line scanner. Whitespace is space, tab and newline. For every text
free of the terminator, `parse_word` splits it as `ws ++ w ++ rest`: `ws` is
the maximal leading run of whitespace, the returned word `w` is the maximal
following run of non-whitespace characters, and the cursor is left at `rest`,
which is empty or begins with whitespace; `w` is empty only when the text was
nothing but whitespace. `skip_whitespace` advances over exactly the maximal
leading run of whitespace and does nothing at the end of input. -/
theorem line_scanner (text : List Char) (hnul : NUL ∉ text) :
    (∀ c, is_whitespace c = true ↔ (c = ' ' ∨ c = '\t' ∨ c = '\n')) ∧
      text = text.takeWhile is_whitespace ++ (parse_word text).1 ++ (parse_word text).2 ∧
      (parse_word text).1 =
        (text.dropWhile is_whitespace).takeWhile (fun c => !is_whitespace c) ∧
      (parse_word text).2 =
        (text.dropWhile is_whitespace).dropWhile (fun c => !is_whitespace c) ∧
      ((parse_word text).2 = [] ∨
        ∃ c t, (parse_word text).2 = c :: t ∧ is_whitespace c = true) ∧
      ((parse_word text).1 = [] →
        (parse_word text).2 = [] ∧ ∀ c ∈ text, is_whitespace c = true) ∧
      skip_whitespace text = text.dropWhile is_whitespace ∧
      text = text.takeWhile is_whitespace ++ skip_whitespace text ∧
      skip_whitespace [] = [] := by
  have hsub : ∀ c ∈ text.dropWhile is_whitespace, is_word_char c = !is_whitespace c := by
    intro c hc
    apply is_word_char_of_ne_NUL
    intro h
    subst h
    exact hnul ((List.dropWhile_suffix _).subset hc)
  obtain ⟨hT, hD⟩ := takeWhile_dropWhile_congr (text.dropWhile is_whitespace) hsub
  have hw : (parse_word text).1 =
      (text.dropWhile is_whitespace).takeWhile (fun c => !is_whitespace c) := by
    rw [parse_word_eq]; exact hT
  have hr : (parse_word text).2 =
      (text.dropWhile is_whitespace).dropWhile (fun c => !is_whitespace c) := by
    rw [parse_word_eq]; exact hD
  have hsplit : text =
      text.takeWhile is_whitespace ++ (parse_word text).1 ++ (parse_word text).2 := by
    rw [hw, hr, List.append_assoc, List.takeWhile_append_dropWhile,
      List.takeWhile_append_dropWhile]
  have hrest : (parse_word text).2 = [] ∨
      ∃ c t, (parse_word text).2 = c :: t ∧ is_whitespace c = true := by
    cases hc : (parse_word text).2 with
    | nil => exact Or.inl rfl
    | cons c t =>
      right
      refine ⟨c, t, rfl, ?_⟩
      have := head_dropWhile_not (p := fun c => !is_whitespace c)
        (text.dropWhile is_whitespace) c (by rw [← hr, hc]; rfl)
      simpa using this
  refine ⟨is_whitespace_iff, hsplit, hw, hr, hrest, ?_, skip_whitespace_eq text, ?_, rfl⟩
  · intro hempty
    have hnil : text.dropWhile is_whitespace = [] := by
      cases ha : text.dropWhile is_whitespace with
      | nil => rfl
      | cons c t =>
        have hc := head_dropWhile_not (p := is_whitespace) text c (by rw [ha]; rfl)
        rw [hw, ha, List.takeWhile_cons] at hempty
        simp [hc] at hempty
    refine ⟨by rw [hr, hnil]; rfl, ?_⟩
    intro c hc
    exact (List.dropWhile_eq_nil_iff.mp hnil) c hc
  · rw [skip_whitespace_eq, List.takeWhile_append_dropWhile]

/-- Witness of C19: the text `"  word rest"`. -/
theorem line_scanner_witness :
    parse_word "  word rest".toList = ("word".toList, " rest".toList) ∧
    ((∀ c, is_whitespace c = true ↔ (c = ' ' ∨ c = '\t' ∨ c = '\n')) ∧
      "  word rest".toList = "  word rest".toList.takeWhile is_whitespace ++
        (parse_word "  word rest".toList).1 ++ (parse_word "  word rest".toList).2 ∧
      (parse_word "  word rest".toList).1 =
        ("  word rest".toList.dropWhile is_whitespace).takeWhile (fun c => !is_whitespace c) ∧
      (parse_word "  word rest".toList).2 =
        ("  word rest".toList.dropWhile is_whitespace).dropWhile (fun c => !is_whitespace c) ∧
      ((parse_word "  word rest".toList).2 = [] ∨
        ∃ c t, (parse_word "  word rest".toList).2 = c :: t ∧ is_whitespace c = true) ∧
      ((parse_word "  word rest".toList).1 = [] →
        (parse_word "  word rest".toList).2 = [] ∧
          ∀ c ∈ "  word rest".toList, is_whitespace c = true) ∧
      skip_whitespace "  word rest".toList = "  word rest".toList.dropWhile is_whitespace ∧
      "  word rest".toList = "  word rest".toList.takeWhile is_whitespace ++
        skip_whitespace "  word rest".toList ∧
      skip_whitespace [] = []) :=
  ⟨rfl, line_scanner "  word rest".toList (by decide)⟩

theorem loop_done (pf : Platform) (k : Codes) (fuel : Nat) (s : pass_state)
    (h : s.cur_next = []) : loop pf k fuel s = some s := by
  cases fuel with
  | zero => simp [loop, h]
  | succ f => simp [loop, h]

/-- With any number of iterations from the bound on, the loop ends with `cur`
null, in the state summarised by `settle_all`. -/
theorem loop_total (pf : Platform) (k : Codes) (l : List cmark_node) (fuel : Nat)
    (hfuel : loop_bound l ≤ fuel) :
    loop pf k fuel ⟨[], l, true, []⟩ =
      some ⟨(settle_all pf k l).1, [], l.isEmpty, (settle_all pf k l).2⟩ := by
  cases l with
  | nil =>
    simp only [settle_all]
    cases fuel with
    | zero => rfl
    | succ f => rfl
  | cons c rest =>
    have hb : loop_bound (c :: rest) =
        (rest.length + plain_count (c :: rest) * (rest.length + 1 + 1)) + 1 := by
      simp only [loop_bound, List.length_cons]; omega
    rw [hb] at hfuel
    cases fuel with
    | zero => omega
    | succ f =>
      show loop pf k f (loop_next (loop_body pf k ⟨[], c :: rest, true, []⟩)) = _
      rw [loop_iter_first, loop_clear]
      · simp [settle_all]
      · simp only [loop_measure, settle_first_length, plain_count_cons] at hfuel ⊢
        have h1 : 1 + rest.length + 1 = rest.length + 1 + 1 := by omega
        rw [h1]
        have : plain_count rest * (rest.length + 1 + 1) ≤
            ((if c.type = node_section ∨ c.type = node_command then 0 else 1) +
              plain_count rest) * (rest.length + 1 + 1) :=
          Nat.mul_le_mul_right _ (Nat.le_add_left _ _)
        omega

/-- C21. The structuring pass is total. For every root the pass returns, with
no replacement root; the loop ends with `cur` null within the iteration bound,
and running it with any larger number of iterations gives the same final
state. The traversal does visit nodes again after a merge: on
`[section(details), command, list]` the loop needs four iterations for three
top-level nodes (three are not enough), and still ends. -/
theorem pass_is_total (pf : Platform) (k : Codes) (root : cmark_node) :
    (∃ r, create_implicit_brief_details pf k root = some r ∧ r.new_root = none) ∧
      (∃ s, loop pf k (loop_bound root.children) ⟨[], root.children, true, []⟩ = some s ∧
        s.cur_next = [] ∧
        ∀ fuel, loop_bound root.children ≤ fuel →
          loop pf k fuel ⟨[], root.children, true, []⟩ = some s) ∧
      (loop sample_platform sample_codes 3
          ⟨[], [cmark_node.mk node_section 11 none [], cmark_node.mk node_command 3 (some []) [],
            cmark_node.mk list 0 none []], true, []⟩ = none ∧
        loop sample_platform sample_codes 4
          ⟨[], [cmark_node.mk node_section 11 none [], cmark_node.mk node_command 3 (some []) [],
            cmark_node.mk list 0 none []], true, []⟩ =
          some ⟨[cmark_node.mk node_command 3 (some []) [],
            cmark_node.mk node_section 11 none [cmark_node.mk list 0 none []]], [], false, []⟩) := by
  refine ⟨⟨_, pass_eq pf k root, rfl⟩, ?_, rfl, rfl⟩
  refine ⟨_, loop_total pf k root.children _ (Nat.le_refl _), rfl, ?_⟩
  intro fuel hfuel
  exact loop_total pf k root.children fuel hfuel

theorem settle_all_sections_commands (pf : Platform) (k : Codes) (l : List cmark_node)
    (h : ∀ n ∈ l, n.type = node_section ∨ n.type = node_command) :
    settle_all pf k l = (l.reverse, []) := by
  cases l with
  | nil => rfl
  | cons c rest =>
    have hc := h c (List.mem_cons_self _ _)
    have hnp : c.type ≠ paragraph := by
      rcases hc with hc | hc <;> rw [hc] <;> decide
    have hstep : settle_step pf k ([], []) c = ([c], []) := by
      simp [settle_step, hc]
    simp only [settle_all]
    rw [settle_first_not_paragraph pf k c hnp, hstep,
      settle_sections_commands pf k rest (fun x hx => h x (List.mem_cons_of_mem _ hx))]
    simp

/-- After an iteration every previous sibling is a section or a command, if
that held before. -/
theorem settle_step_sections_commands (pf : Platform) (k : Codes)
    (acc : List cmark_node × List cmark_node) (n : cmark_node)
    (hacc : ∀ x ∈ acc.1, x.type = node_section ∨ x.type = node_command) :
    ∀ x ∈ (settle_step pf k acc n).1, x.type = node_section ∨ x.type = node_command := by
  rcases settle_step_cases pf k acc n with ⟨hn, h⟩ | ⟨-, -, h⟩ | ⟨-, cmds, d, before, hp, -, hdet, h⟩
  · rw [h]
    intro x hx
    rcases List.mem_cons.mp hx with hx | hx
    · rw [hx]; exact hn
    · exact hacc x hx
  · rw [h]
    intro x hx
    rcases List.mem_cons.mp hx with hx | hx
    · rw [hx]; exact Or.inl rfl
    · exact hacc x hx
  · rw [h]
    intro x hx
    rcases List.mem_append.mp hx with hx | hx
    · exact hacc x (by rw [hp]; exact List.mem_append_left _ hx)
    · rcases List.mem_cons.mp hx with hx | hx
      · rw [hx]; exact Or.inl hdet.1
      · exact hacc x (by rw [hp]; exact List.mem_append_right _ (List.mem_cons_of_mem _ hx))

theorem settle_all_only_sections_commands (pf : Platform) (k : Codes) (l : List cmark_node) :
    ∀ x ∈ (settle_all pf k l).1, x.type = node_section ∨ x.type = node_command := by
  cases l with
  | nil => intro x hx; simp [settle_all] at hx
  | cons c rest =>
    simp only [settle_all]
    refine settle_induct pf k
      (fun acc => ∀ x ∈ acc.1, x.type = node_section ∨ x.type = node_command) rest ?_ _ ?_
    · intro acc n _ hacc
      exact settle_step_sections_commands pf k acc n hacc
    · unfold settle_first
      split
      · split
        · intro x hx
          have : x = cmark_node_append_child (create_node pf node_section k.brief none) c := by
            simpa using hx
          rw [this]; exact Or.inl rfl
        · intro x hx
          have : x = cmark_node_append_child (create_node pf node_section k.details none) c := by
            simpa using hx
          rw [this]; exact Or.inl rfl
      · exact settle_step_sections_commands pf k ([], []) c
          (fun x hx => absurd hx (List.not_mem_nil _))

/-- C22. Postcondition of the structuring pass. For every root the pass
returns and every top-level child of the resulting root is a section node or
a command node; running the pass a second time, on the resulting root,
returns that root unchanged and creates no node. -/
theorem pass_postcondition (pf : Platform) (k : Codes) (root : cmark_node) :
    ∃ r, create_implicit_brief_details pf k root = some r ∧
      (∀ n ∈ r.root.children, n.type = node_section ∨ n.type = node_command) ∧
      create_implicit_brief_details pf k r.root = some ⟨r.root, [], none⟩ := by
  obtain ⟨r, hr⟩ : ∃ r, create_implicit_brief_details pf k root = some r := ⟨_, pass_eq pf k root⟩
  obtain ⟨hch, -⟩ := root_children_of_pass pf k root r hr
  have hall : ∀ n ∈ r.root.children, n.type = node_section ∨ n.type = node_command := by
    rw [hch]
    intro n hn
    exact settle_all_only_sections_commands pf k root.children n (List.mem_reverse.mp hn)
  refine ⟨r, hr, hall, ?_⟩
  rw [pass_eq, settle_all_sections_commands pf k r.root.children hall]
  simp [cmark_node_eta]

theorem is_word_char_false_of_not_whitespace (c : Char) (h1 : is_word_char c = false)
    (h2 : is_whitespace c = false) : c = NUL := by
  simpa [is_word_char, h2] using h1

/-- When the word parsed is empty, the character under the cursor after the
whitespace skip is the terminator. -/
theorem deref_after_empty_word (cur : List Char) (h : (parse_word cur).1 = []) :
    deref (skip_whitespace (parse_word cur).2) = NUL := by
  rw [parse_word_eq] at h ⊢
  simp only at h ⊢
  cases ha : cur.dropWhile is_whitespace with
  | nil => rfl
  | cons c t =>
    have hws : is_whitespace c = false :=
      head_dropWhile_not (p := is_whitespace) cur c (by rw [ha]; rfl)
    rw [ha] at h
    have hwc : is_word_char c = false := by
      by_contra hc
      simp only [Bool.not_eq_false] at hc
      rw [List.takeWhile_cons, if_pos hc] at h
      cases h
    have hc : c = NUL := is_word_char_false_of_not_whitespace c hwc hws
    rw [List.dropWhile_cons, if_neg (by simp [hwc])]
    subst hc
    rfl

theorem parse_word_dash (ws t : List Char) (hws : ∀ c ∈ ws, is_whitespace c = true) :
    (parse_word (ws ++ '-' :: t)).1 = '-' :: t.takeWhile is_word_char := by
  rw [parse_word_eq]
  simp only
  rw [dropWhile_of_all ws _ hws, List.dropWhile_cons, if_neg (by decide), List.takeWhile_cons,
    if_pos (by decide)]

/-- C23. Whenever `parse_section_key` reports a key, the key is not empty and
contains no whitespace (space, tab, newline) and no terminator. A `-` that
comes right after the whitespace following the directive word is the first
character of the candidate word, so a key reported on such a text begins with
`-`; it is never the separator of an empty key. -/
theorem section_key_nonempty (cur key : List Char)
    (h : (parse_section_key cur).1 = some key) :
    key ≠ [] ∧
      (∀ c ∈ key, c ≠ ' ' ∧ c ≠ '\t' ∧ c ≠ '\n') ∧
      (∀ c ∈ key, is_whitespace c = false ∧ c ≠ NUL) ∧
      (∀ ws t, cur = ws ++ '-' :: t → (∀ c ∈ ws, is_whitespace c = true) →
        key = '-' :: t.takeWhile is_word_char) := by
  have hkey : key = (parse_word cur).1 ∧ deref (skip_whitespace (parse_word cur).2) = '-' := by
    unfold parse_section_key at h
    simp only at h
    split at h
    · rename_i hd
      exact ⟨(Option.some.inj h).symm, hd⟩
    · cases h
  obtain ⟨hk, hdash⟩ := hkey
  obtain ⟨ws, -, -, hword, -⟩ := parse_word_spec cur
  have hchars : ∀ c ∈ key, is_whitespace c = false ∧ c ≠ NUL := by
    intro c hc
    rw [hk] at hc
    have := hword c hc
    simp only [is_word_char, Bool.and_eq_true, bne_iff_ne, ne_eq, Bool.not_eq_true'] at this
    exact ⟨this.2, this.1⟩
  refine ⟨?_, ?_, hchars, ?_⟩
  · intro hempty
    rw [hk] at hempty
    have := deref_after_empty_word cur hempty
    rw [this] at hdash
    revert hdash
    decide
  · intro c hc
    have hw := (hchars c hc).1
    refine ⟨?_, ?_, ?_⟩ <;> intro hcc <;> subst hcc <;> revert hw <;> decide
  · intro ws' t hcur hws'
    rw [hk, hcur]
    exact parse_word_dash ws' t hws'

/-- Witness of C23: on `" - - x"` the first `-` is the candidate word and the
key reported is `-`; on `" name - rest"` the key is `name`; on `" - name"`
the candidate word is `-` and no key is reported. -/
theorem section_key_nonempty_witness :
    (parse_section_key " name - rest".toList).1 = some "name".toList ∧
    (parse_section_key " - name".toList).1 = none ∧
    (parse_section_key " - - x".toList).1 = some "-".toList ∧
    ("-".toList ≠ [] ∧
      (∀ c ∈ "-".toList, c ≠ ' ' ∧ c ≠ '\t' ∧ c ≠ '\n') ∧
      (∀ c ∈ "-".toList, is_whitespace c = false ∧ c ≠ NUL) ∧
      (∀ ws t, " - - x".toList = ws ++ '-' :: t → (∀ c ∈ ws, is_whitespace c = true) →
        "-".toList = '-' :: t.takeWhile is_word_char)) :=
  ⟨rfl, rfl, rfl, section_key_nonempty " - - x".toList "-".toList rfl⟩

end Standardese
